import Mathlib

/-!
Verification of the IPS4o-style state-machine sorter
(`src/ips4o_state_machine.hpp`, namespace `ips4o_sm`).

The C++ core is a stack-driven state machine over a shared mutable buffer.
We embed it shallowly: the buffer is a `List α`, iterator pairs become index
pairs `[b, e)`, one `step()` of the machine is a pure function on machine
states, and the randomness of `std::mt19937` / `uniform_int_distribution`
is abstracted as an arbitrary stream `rand : Nat → Nat` (each draw in
`[0, remaining]` is modelled as `rand counter % (remaining+1)`), together
with a draw counter carried in the machine state.

`std::partition` is an external library routine whose result ordering is
implementation-defined; we model its contract deterministically as
"satisfying elements first (in order), the rest after".
-/

namespace Ips4o

/-- A comparator, as in the C++ template parameter: a boolean strict "less". -/
def Cmp (α : Type) : Type := α → α → Bool

/-- Validity of a comparator: a strict weak order. `irrefl` and `trans` make
it a strict order; `le_trans` (transitivity of the induced non-strict
relation `fun a b => comp b a = false`) is the "weak" axiom, equivalent to
transitivity of incomparability. -/
structure IsSWO {α : Type} (comp : Cmp α) : Prop where
  irrefl : ∀ a, comp a a = false
  trans : ∀ {a b c}, comp a b = true → comp b c = true → comp a c = true
  le_trans : ∀ {a b c}, comp b a = false → comp c b = false → comp c a = false

namespace IsSWO

variable {α : Type} {comp : Cmp α}

theorem asymm (h : IsSWO comp) {a b : α} (hab : comp a b = true) : comp b a = false := by
  cases hba : comp b a
  · rfl
  · have h2 := h.trans hab hba
    rw [h.irrefl] at h2
    exact absurd h2 (by simp)

/-- From `a < b` and `b ≤ c` conclude `a < c`. -/
theorem lt_of_lt_of_le (h : IsSWO comp) {a b c : α}
    (hab : comp a b = true) (hbc : comp c b = false) : comp a c = true := by
  cases hac : comp a c
  · exact absurd (h.le_trans hbc hac) (by simp [hab])
  · rfl

theorem lt_of_le_of_lt (h : IsSWO comp) {a b c : α}
    (hab : comp b a = false) (hbc : comp b c = true) : comp a c = true := by
  cases hac : comp a c
  · exact absurd (h.le_trans hac hab) (by simp [hbc])
  · rfl

end IsSWO

variable {α : Type}

/-- The non-strict order induced by a comparator: `a ≤ b` iff `¬(b < a)`.
"Non-decreasing under the comparator" means pairwise `le`. -/
def le (comp : Cmp α) (a b : α) : Prop := comp b a = false

/-- A list is non-decreasing (pairwise, under the comparator). -/
def SortedLe (comp : Cmp α) (l : List α) : Prop := l.Pairwise (le comp)

instance (comp : Cmp α) (l : List α) : Decidable (SortedLe comp l) := by
  unfold SortedLe le
  infer_instance

/-- Boolean adjacent-sortedness check, the model of
`std::is_sorted(first, last, comp)`: no adjacent pair has the later element
strictly below the earlier one. -/
def sortedAdj (comp : Cmp α) : List α → Bool
  | a :: b :: t => !comp b a && sortedAdj comp (b :: t)
  | _ => true

/-- Model of the reverse-sorted scan in `handle_simple_cases`: is there an
adjacent strictly ascending pair? -/
def anyAsc (comp : Cmp α) : List α → Bool
  | a :: b :: t => comp a b || anyAsc comp (b :: t)
  | _ => false

/-- The half-open slice `[b, e)` of a buffer. -/
def slice (b e : ℕ) (buf : List α) : List α := (buf.drop b).take (e - b)

/-- Apply a pure transformation to the slice `[b, e)` of a buffer, leaving
everything outside unchanged. Every buffer mutation of the machine has this
form (the C++ handlers only touch iterators inside the current task range). -/
def applySlice (b e : ℕ) (f : List α → List α) (buf : List α) : List α :=
  buf.take b ++ f (slice b e buf) ++ buf.drop e

/-- Swap of two positions of a list (`std::swap(*it, *jt)`). Out-of-range
positions leave the list unchanged (unreachable in well-formed states). -/
def swapL (l : List α) (i j : ℕ) : List α :=
  match l[i]?, l[j]? with
  | some a, some b => (l.set i b).set j a
  | _, _ => l

/-- One backward scan-and-insert of the insertion sort, on the reversed
sorted part: shift elements `x` with `comp val x` and place `val`
at the first position whose element is not above `val`
(the inner `for (next = it - 1; comp(val, *next); --next)` loop of
`handle_base_case`). -/
def insTail (comp : Cmp α) (val : α) : List α → List α
  | [] => [val]
  | x :: xs => if comp val x then x :: insTail comp val xs else val :: x :: xs

/-- One iteration of the insertion-sort loop of `handle_base_case`: given the
already-sorted part and the next value, either shift the whole part
(`comp(val, *begin)` branch) or scan backwards from the end. -/
def insertStep (comp : Cmp α) (acc : List α) (val : α) : List α :=
  match acc with
  | [] => [val]
  | first :: _ =>
    if comp val first then val :: acc
    else (insTail comp val acc.reverse).reverse

/-- The insertion sort of `handle_base_case`, as a fold of `insertStep` over
the range. -/
def insertionSortC (comp : Cmp α) (l : List α) : List α :=
  l.foldl (insertStep comp) []

/-- Candidate sample indices visited by the splitter-building loop of
`handle_sample_sorted`: `step - 1, 2*step - 1, ...` below `m`
(both the outer loop and the duplicate-skipping loop advance by `step`). -/
def splitCands (st m : ℕ) : List ℕ :=
  (List.range m).filter (fun i => i % st = st - 1)

/-- Core of the splitter builder: walk the candidate indices, appending the
sample value when it is strictly above the previous splitter (duplicates are
skipped) and fewer than `num_buckets - 1` splitters exist. The accumulator is
kept reversed (most recent splitter first). -/
def bsGo [Inhabited α] (comp : Cmp α) (sample : List α) (nb : ℕ) :
    List ℕ → List α → List α
  | [], acc => acc.reverse
  | i :: is, acc =>
    match acc with
    | [] => if 0 < nb - 1 then bsGo comp sample nb is [sample.getD i default]
            else bsGo comp sample nb is []
    | bk :: _ =>
      if acc.length < nb - 1 && comp bk (sample.getD i default) then
        bsGo comp sample nb is (sample.getD i default :: acc)
      else bsGo comp sample nb is acc

/-- The splitter builder of `handle_sample_sorted` (given a positive `step`
and the sorted sample prefix). -/
def buildSplitters [Inhabited α] (comp : Cmp α) (sample : List α) (st nb : ℕ) : List α :=
  bsGo comp sample nb (splitCands st sample.length) []

/-- Sequential multi-way partition of `handle_partition`: for each splitter
in turn, partition the remaining suffix (elements strictly below the splitter
first, modelling the `std::partition` contract) and record the relative
partition points (cumulative bucket boundaries, relative to the slice). -/
def multiPart (comp : Cmp α) : List α → List α → List α × List ℕ
  | [], l => (l, [])
  | sp :: sps, l =>
    let tr := l.filter (fun x => comp x sp)
    let fl := l.filter (fun x => !comp x sp)
    let r := multiPart comp sps fl
    (tr ++ r.1, tr.length :: r.2.map (· + tr.length))

/-- Consecutive pairs of a boundary list (bucket delimiters, as in
`handle_recurse`). -/
def pcs (xs : List ℕ) : List (ℕ × ℕ) := xs.zip xs.tail

/-- Everything in `X` is weakly below everything in `Y`: no element of `Y`
is strictly below an element of `X`. Holds across partition buckets. -/
def Cross (comp : Cmp α) (X Y : List α) : Prop :=
  ∀ x ∈ X, ∀ y ∈ Y, comp y x = false

/-- The in-place partial shuffle of `handle_sample_select`, on the slice of
length `n`: at iteration `i` (of `m`), draw an index uniformly in
`[0, n-1-i]` (modelled as `rand (rc+i) % (n-i)`) and swap position `i` with
position `i + idx`. -/
def shuffleGo (rand : ℕ → ℕ) (rc n : ℕ) : ℕ → ℕ → List α → List α
  | 0, _, l => l
  | m + 1, i, l => shuffleGo rand rc n m (i + 1) (swapL l i (i + rand (rc + i) % (n - i)))

/-- The element-classification fold of `handle_classify`: for each element,
find the first splitter it is strictly below (`List.findIdx`, or the number
of splitters when none) and bump that bucket count, guarded by the counts
length as in the source. -/
def classifyCounts (comp : Cmp α) (sps : List α) (l : List α) (counts : List ℕ) : List ℕ :=
  l.foldl (fun cs x =>
    let bkt := sps.findIdx (fun sp => comp x sp)
    if bkt < cs.length then cs.set bkt (cs.getD bkt 0 + 1) else cs) counts

/-- Modelled from the spec: the injected size policy `ips4o::Config`
(`ips4o/config.hpp` is not under `src/`). Per the spec it supplies integers
`kBaseCaseSize`, `kBaseCaseMultiplier` defining the base threshold, a map
`logBuckets` from range length to bucket-count exponent, and a map
`oversamplingFactor` from range length to the sampling stride multiplier. -/
structure Cfg where
  kBaseCaseSize : ℕ
  kBaseCaseMultiplier : ℕ
  logBuckets : ℕ → ℕ
  oversamplingFactor : ℕ → ℕ

/-- The base threshold `kBaseCaseMultiplier * kBaseCaseSize`. -/
def Cfg.baseThreshold (cfg : Cfg) : ℕ := cfg.kBaseCaseMultiplier * cfg.kBaseCaseSize

/-- The task states of `ips4o_sm::State` (all seven enumerators). -/
inductive State where
  | simpleCases
  | baseCase
  | sampleSelect
  | sampleSorted
  | classify
  | partition
  | recurse
deriving DecidableEq, Repr

/-- A pending task (`StateMachine::Task`): a range `[b, e)` into the shared
buffer, its state, and the context fields for sampling and partitioning. -/
structure Task (α : Type) where
  b : ℕ
  e : ℕ
  state : State
  splitters : List α := []
  bucket_counts : List ℕ := []
  bucket_starts : List ℕ := []
  num_samples : ℕ := 0
  step : ℕ := 0
  log_buckets : ℕ := 0
  num_buckets : ℕ := 0
deriving DecidableEq, Repr

/-- A machine state: the shared buffer, the task stack (head = top), and the
random-draw counter. -/
structure M (α : Type) where
  buf : List α
  stack : List (Task α)
  rc : ℕ
deriving DecidableEq, Repr

/-- `StateMachine::is_done`. -/
def isDone (s : M α) : Bool := s.stack.isEmpty

/-- The machine constructed over a whole buffer: one task covering the full
range, state `SIMPLE_CASES`. -/
def initM (buf : List α) : M α :=
  ⟨buf, [{ b := 0, e := buf.length, state := .simpleCases }], 0⟩

/-- `handle_simple_cases`: empty range pops; if the last element is not below
the first, a sorted range pops (untouched) and otherwise falls to BASE_CASE;
if the last element is below the first, a range with no strictly ascending
adjacent pair is reversed in place and popped, otherwise falls to BASE_CASE.
Handlers return the new buffer, the tasks replacing the top of the stack
(the rest of the stack is untouched, as in the C++), and the new counter. -/
def handleSimple (comp : Cmp α) (buf : List α) (t : Task α)
    (rc : ℕ) : List α × List (Task α) × ℕ :=
  if t.b = t.e then ⟨buf, [], rc⟩
  else
    match slice t.b t.e buf with
    | [] => ⟨buf, [], rc⟩
    | a :: as =>
      if comp (List.getLastD as a) a then
        if anyAsc comp (a :: as) then ⟨buf, [{ t with state := .baseCase }], rc⟩
        else ⟨applySlice t.b t.e List.reverse buf, [], rc⟩
      else
        if sortedAdj comp (a :: as) then ⟨buf, [], rc⟩
        else ⟨buf, [{ t with state := .baseCase }], rc⟩

/-- `handle_base_case`: at or below the base threshold, insertion-sort the
range in place and pop (an empty range pops untouched); above it, move to
SAMPLE_SELECT. -/
def handleBase (cfg : Cfg) (comp : Cmp α) (buf : List α) (t : Task α)
    (rc : ℕ) : List α × List (Task α) × ℕ :=
  if t.e - t.b ≤ cfg.baseThreshold then
    ⟨applySlice t.b t.e (insertionSortC comp) buf, [], rc⟩
  else ⟨buf, [{ t with state := .sampleSelect }], rc⟩

/-- `handle_sample_select`: compute the sampling plan from the range length,
rewrite the task into a SAMPLE_SORTED continuation carrying the plan, shuffle
a random sample into the front of the range, and push a SIMPLE_CASES child
task over the sample prefix. -/
def handleSampleSelect (cfg : Cfg) (rand : ℕ → ℕ) (buf : List α) (t : Task α)
    (rc : ℕ) : List α × List (Task α) × ℕ :=
  let n := t.e - t.b
  let lb := cfg.logBuckets n
  let nb := 2 ^ lb
  let st := max 1 (cfg.oversamplingFactor n)
  let m := min (st * nb - 1) (n / 2)
  let ctx : Task α := { t with state := .sampleSorted, log_buckets := lb,
                               num_buckets := nb, step := st, num_samples := m }
  let child : Task α := { b := t.b, e := t.b + m, state := .simpleCases }
  ⟨applySlice t.b t.e (shuffleGo rand rc n m 0) buf, [child, ctx], rc + m⟩

/-- `handle_sample_sorted`: build the splitters from the now-sorted sample
prefix (when the plan is non-trivial), initialize the bucket counts, and move
to CLASSIFY. -/
def handleSampleSorted (comp : Cmp α) [Inhabited α] (buf : List α) (t : Task α)
    (rc : ℕ) : List α × List (Task α) × ℕ :=
  let sps :=
    if 0 < t.num_samples ∧ 0 < t.step then
      buildSplitters comp (slice t.b (t.b + t.num_samples) buf) t.step t.num_buckets
    else []
  ⟨buf, [{ t with splitters := sps,
                  bucket_counts := List.replicate (sps.length + 1) 0,
                  state := .classify }], rc⟩

/-- `handle_classify`: count the elements per bucket (these counts are never
read again) and move to PARTITION. The buffer is untouched. -/
def handleClassify (comp : Cmp α) (buf : List α) (t : Task α)
    (rc : ℕ) : List α × List (Task α) × ℕ :=
  ⟨buf, [{ t with bucket_counts := classifyCounts comp t.splitters (slice t.b t.e buf) t.bucket_counts,
                  state := .partition }], rc⟩

/-- `handle_partition`: partition the range by each splitter in turn, record
the bucket starts (relative to `begin`, delimited by `0` and the range
length), and move to RECURSE. -/
def handlePartition (comp : Cmp α) (buf : List α) (t : Task α)
    (rc : ℕ) : List α × List (Task α) × ℕ :=
  let r := multiPart comp t.splitters (slice t.b t.e buf)
  ⟨applySlice t.b t.e (fun _ => r.1) buf,
   [{ t with bucket_starts := (0 :: r.2) ++ [t.e - t.b], state := .recurse }], rc⟩

/-- The bucket tasks pushed by `handle_recurse`: one SIMPLE_CASES task per
bucket of size greater than one, in bucket order (the C++ pushes them in
reverse so that the first bucket ends on top; head-first lists match that). -/
def recurseTasks (bstarts : List ℕ) (base : ℕ) : List (Task α) :=
  (pcs bstarts).filterMap (fun pq =>
    if 1 < pq.2 - pq.1 then
      some { b := base + pq.1, e := base + pq.2, state := .simpleCases }
    else none)

/-- `handle_recurse`: pop the task and push its non-trivial buckets. -/
def handleRecurse (buf : List α) (t : Task α) (rc : ℕ) :
    List α × List (Task α) × ℕ :=
  ⟨buf, recurseTasks t.bucket_starts t.b, rc⟩

/-- Dispatch on the state of a task: the effect of one `step()` on the top
task, independent of the rest of the stack. -/
def stepTop (cfg : Cfg) (comp : Cmp α) [Inhabited α] (rand : ℕ → ℕ) (buf : List α)
    (t : Task α) (rc : ℕ) : List α × List (Task α) × ℕ :=
  match t.state with
  | .simpleCases => handleSimple comp buf t rc
  | .baseCase => handleBase cfg comp buf t rc
  | .sampleSelect => handleSampleSelect cfg rand buf t rc
  | .sampleSorted => handleSampleSorted comp buf t rc
  | .classify => handleClassify comp buf t rc
  | .partition => handlePartition comp buf t rc
  | .recurse => handleRecurse buf t rc

/-- `StateMachine::step`: dispatch on the state of the task at the top of the
stack (no-op on an empty stack). -/
def step (cfg : Cfg) (comp : Cmp α) [Inhabited α] (rand : ℕ → ℕ) (s : M α) : M α :=
  match s.stack with
  | [] => s
  | t :: rest =>
    let r := stepTop cfg comp rand s.buf t s.rc
    ⟨r.1, r.2.1 ++ rest, r.2.2⟩

/-- `n` iterated steps. `StateMachine::run` is `stepN n` for any `n` large
enough that the stack has emptied. -/
def stepN (cfg : Cfg) (comp : Cmp α) [Inhabited α] (rand : ℕ → ℕ) : ℕ → M α → M α
  | 0, s => s
  | n + 1, s => stepN cfg comp rand n (step cfg comp rand s)

/-- Variant of `handle_sample_sorted` for the machine without the CLASSIFY
pass: identical splitter construction, but the task moves directly to
PARTITION and the bucket counts are left untouched. -/
def handleSampleSortedD (comp : Cmp α) [Inhabited α] (buf : List α) (t : Task α)
    (rc : ℕ) : List α × List (Task α) × ℕ :=
  let sps :=
    if 0 < t.num_samples ∧ 0 < t.step then
      buildSplitters comp (slice t.b (t.b + t.num_samples) buf) t.step t.num_buckets
    else []
  ⟨buf, [{ t with splitters := sps, state := .partition }], rc⟩

/-- Top-task dispatch of the machine with the CLASSIFY transition removed:
SAMPLE_SORTED goes directly to PARTITION. A CLASSIFY task is unreachable in
this machine (no handler produces that state); its branch is a stutter. -/
def stepTopD (cfg : Cfg) (comp : Cmp α) [Inhabited α] (rand : ℕ → ℕ) (buf : List α)
    (t : Task α) (rc : ℕ) : List α × List (Task α) × ℕ :=
  match t.state with
  | .classify => ⟨buf, [t], rc⟩
  | .sampleSorted => handleSampleSortedD comp buf t rc
  | _ => stepTop cfg comp rand buf t rc

/-- One step of the CLASSIFY-free machine. -/
def stepD (cfg : Cfg) (comp : Cmp α) [Inhabited α] (rand : ℕ → ℕ) (s : M α) : M α :=
  match s.stack with
  | [] => s
  | t :: rest =>
    let r := stepTopD cfg comp rand s.buf t s.rc
    ⟨r.1, r.2.1 ++ rest, r.2.2⟩

/-- Iterated steps of the CLASSIFY-free machine. -/
def stepDN (cfg : Cfg) (comp : Cmp α) [Inhabited α] (rand : ℕ → ℕ) : ℕ → M α → M α
  | 0, s => s
  | n + 1, s => stepDN cfg comp rand n (stepD cfg comp rand s)

/-- Erasure of the CLASSIFY-only data of a task: drop the (never read)
bucket counts, and map the CLASSIFY state to PARTITION. -/
def eraseT (t : Task α) : Task α :=
  { t with bucket_counts := [],
           state := if t.state = .classify then .partition else t.state }

/-- Erasure of a machine state, task-wise. -/
def eraseM (s : M α) : M α := ⟨s.buf, s.stack.map eraseT, s.rc⟩

/-- Well-formedness of a task against the buffer length: a valid range, and
recorded bucket starts within the range (established by PARTITION before
RECURSE reads them). -/
def WFt (len : ℕ) (t : Task α) : Prop :=
  t.b ≤ t.e ∧ t.e ≤ len ∧ ∀ x ∈ t.bucket_starts, x ≤ t.e - t.b

/-- Well-formedness of a machine state: every stacked task is well-formed. -/
def WFm (s : M α) : Prop := ∀ t ∈ s.stack, WFt s.buf.length t

/-- Two buffers agree outside the range `[lo, hi)`. -/
def Agree (lo hi : ℕ) (xs ys : List α) : Prop :=
  ∀ i, i < lo ∨ hi ≤ i → xs[i]? = ys[i]?

/-- Comparator-equality (incomparability), the equivalence of a strict weak
order. -/
def eqvB (comp : Cmp α) (a b : α) : Bool := !comp a b && !comp b a

/-- The natural strict order on naturals, the default `std::less<>` of the
test drivers. -/
def natLt : Cmp ℕ := fun a b => decide (a < b)

/-- Comparator on tagged values comparing only the value component (used to
express stability: tags record original positions). -/
def onFst (comp : Cmp α) : Cmp (α × ℕ) := fun p q => comp p.1 q.1

/-- A small concrete policy: base threshold `2`, one bucket-exponent, unit
oversampling (the policy is injected configuration; see `Cfg`). -/
def cfgTiny : Cfg := ⟨1, 2, fun _ => 1, fun _ => 1⟩

/-- The adversarial random stream that always draws index `0`. -/
def randZero : ℕ → ℕ := fun _ => 0

/-- The concrete buffer `[1, 2, 1]` on which the machine cycles forever
under `cfgTiny` and `randZero`: the sole sample is the minimum `1`, the
single splitter produces an empty first bucket, and the second bucket is the
whole range, which RECURSE re-pushes. -/
def cexBuf : List ℕ := [1, 2, 1]

/-- The machine over `cexBuf`. -/
def cexM : M ℕ := initM cexBuf

end Ips4o

/-! ## Basic list infrastructure: permutations, lengths, slices -/

namespace Ips4o

variable {α : Type}

theorem swapL_length (l : List α) (i j : ℕ) : (swapL l i j).length = l.length := by
  unfold swapL
  split <;> simp

theorem cons_set_perm (t : List α) (j : ℕ) (a b : α) (hj : t[j]? = some b) :
    (b :: t.set j a).Perm (a :: t) := by
  induction t generalizing j with
  | nil => simp at hj
  | cons c t' ih =>
    cases j with
    | zero =>
      simp at hj
      subst hj
      exact List.Perm.swap _ _ _
    | succ k =>
      simp at hj
      have h1 : (b :: c :: t'.set k a).Perm (c :: b :: t'.set k a) := List.Perm.swap _ _ _
      have h2 : (c :: b :: t'.set k a).Perm (c :: a :: t') := List.Perm.cons c (ih k hj)
      have h3 : (c :: a :: t').Perm (a :: c :: t') := List.Perm.swap _ _ _
      exact (h1.trans h2).trans h3

theorem set_set_perm (l : List α) (i j : ℕ) (a b : α) (hij : i < j)
    (hi : l[i]? = some a) (hj : l[j]? = some b) : ((l.set i b).set j a).Perm l := by
  induction l generalizing i j with
  | nil => simp at hi
  | cons x t ih =>
    cases j with
    | zero => omega
    | succ k =>
      cases i with
      | zero =>
        simp at hi hj
        subst hi
        exact cons_set_perm t k x b hj
      | succ m =>
        simp at hi hj
        exact List.Perm.cons x (ih m k (by omega) hi hj)

theorem swapL_perm (l : List α) (i j : ℕ) : (swapL l i j).Perm l := by
  unfold swapL
  split
  case h_2 => exact List.Perm.refl l
  case h_1 a b hi hj =>
    rcases Nat.lt_trichotomy i j with hij | hij | hij
    · exact set_set_perm l i j a b hij hi hj
    · subst hij
      rw [hi] at hj
      cases hj
      have hilen : i < l.length := (List.getElem?_eq_some.mp hi).1
      rw [List.set_set]
      have hset : l.set i a = l := by
        apply List.ext_getElem?
        intro n
        rw [List.getElem?_set]
        split
        · next h =>
          subst h
          simp [hilen, hi.symm]
        · rfl
      rw [hset]
    · rw [List.set_comm b a l (by omega)]
      exact set_set_perm l j i b a hij hj hi

end Ips4o

namespace Ips4o

variable {α : Type}

theorem shuffleGo_perm (rand : ℕ → ℕ) (rc n : ℕ) :
    ∀ (m i : ℕ) (l : List α), (shuffleGo rand rc n m i l).Perm l := by
  intro m
  induction m with
  | zero => intro i l; exact List.Perm.refl l
  | succ m ih =>
    intro i l
    exact (ih (i + 1) _).trans (swapL_perm l i _)

theorem multiPart_perm (comp : Cmp α) :
    ∀ (sps l : List α), (multiPart comp sps l).1.Perm l := by
  intro sps
  induction sps with
  | nil => intro l; exact List.Perm.refl l
  | cons sp sps ih =>
    intro l
    exact (List.Perm.append_left _ (ih _)).trans (List.filter_append_perm _ l)

theorem insTail_decomp (comp : Cmp α) (val : α) :
    ∀ r : List α, ∃ v u, r = v ++ u ∧ insTail comp val r = v ++ val :: u ∧
      (∀ x ∈ v, comp val x = true) ∧
      (∀ x t2, u = x :: t2 → comp val x = false) := by
  intro r
  induction r with
  | nil =>
    exact ⟨[], [], rfl, rfl, by simp, by simp⟩
  | cons x xs ih =>
    cases hvx : comp val x with
    | true =>
      obtain ⟨v, u, hr, hins, hv, hu⟩ := ih
      refine ⟨x :: v, u, by simp [hr], ?_, ?_, hu⟩
      · simp [insTail, hvx, hins]
      · intro y hy
        rcases List.mem_cons.mp hy with rfl | hy
        · exact hvx
        · exact hv y hy
    | false =>
      refine ⟨[], x :: xs, rfl, ?_, by simp, ?_⟩
      · simp [insTail, hvx]
      · intro y t2 h
        cases h
        exact hvx

theorem insTail_reverse_perm (comp : Cmp α) (val : α) (l : List α) :
    (insTail comp val l.reverse).reverse.Perm (val :: l) := by
  obtain ⟨v, u, hr, hins, _, _⟩ := insTail_decomp comp val l.reverse
  rw [hins]
  have h1 : (v ++ val :: u).reverse = u.reverse ++ val :: v.reverse := by
    simp
  rw [h1]
  have h2 : (u.reverse ++ val :: v.reverse).Perm (val :: (u.reverse ++ v.reverse)) :=
    List.perm_middle
  refine h2.trans (List.Perm.cons val ?_)
  have h4 : u.reverse ++ v.reverse = (v ++ u).reverse := by simp
  rw [h4, ← hr]
  simp

theorem insertStep_perm (comp : Cmp α) (acc : List α) (val : α) :
    (insertStep comp acc val).Perm (val :: acc) := by
  cases acc with
  | nil => simp [insertStep]
  | cons first racc =>
    cases hvf : comp val first with
    | true => simp [insertStep, hvf]
    | false =>
      have hstep : insertStep comp (first :: racc) val =
          (insTail comp val (first :: racc).reverse).reverse := by
        simp [insertStep, hvf]
      rw [hstep]
      exact insTail_reverse_perm comp val (first :: racc)

theorem foldl_insertStep_perm (comp : Cmp α) :
    ∀ (l acc : List α), (l.foldl (insertStep comp) acc).Perm (acc ++ l) := by
  intro l
  induction l with
  | nil => intro acc; simp
  | cons x t ih =>
    intro acc
    have h1 := ih (insertStep comp acc x)
    have h2 : (insertStep comp acc x ++ t).Perm ((x :: acc) ++ t) :=
      List.Perm.append_right t (insertStep_perm comp acc x)
    have h3 : ((x :: acc) ++ t).Perm (acc ++ x :: t) := by
      simpa using List.perm_middle.symm
    exact (h1.trans h2).trans h3

theorem insertionSortC_perm (comp : Cmp α) (l : List α) :
    (insertionSortC comp l).Perm l := by
  simpa using foldl_insertStep_perm comp l []

theorem insertionSortC_length (comp : Cmp α) (l : List α) :
    (insertionSortC comp l).length = l.length :=
  (insertionSortC_perm comp l).length_eq

theorem multiPart_length (comp : Cmp α) (sps l : List α) :
    (multiPart comp sps l).1.length = l.length :=
  (multiPart_perm comp sps l).length_eq

theorem shuffleGo_length (rand : ℕ → ℕ) (rc n m i : ℕ) (l : List α) :
    (shuffleGo rand rc n m i l).length = l.length :=
  (shuffleGo_perm rand rc n m i l).length_eq

end Ips4o

namespace Ips4o

variable {α : Type}

theorem sortedAdj_iff_chain (comp : Cmp α) :
    ∀ l : List α, sortedAdj comp l = true ↔ List.Chain' (le comp) l := by
  intro l
  induction l with
  | nil => simp [sortedAdj]
  | cons a t ih =>
    cases t with
    | nil => simp [sortedAdj]
    | cons b t2 =>
      rw [List.chain'_cons, ← ih]
      show (!comp b a && sortedAdj comp (b :: t2)) = true ↔
        le comp a b ∧ sortedAdj comp (b :: t2) = true
      rw [Bool.and_eq_true, Bool.not_eq_true']
      exact Iff.rfl

theorem anyAsc_false_iff_chain (comp : Cmp α) :
    ∀ l : List α, anyAsc comp l = false ↔ List.Chain' (fun a b => comp a b = false) l := by
  intro l
  induction l with
  | nil => simp [anyAsc]
  | cons a t ih =>
    cases t with
    | nil => simp [anyAsc]
    | cons b t2 =>
      rw [List.chain'_cons, ← ih]
      show (comp a b || anyAsc comp (b :: t2)) = false ↔
        comp a b = false ∧ anyAsc comp (b :: t2) = false
      rw [Bool.or_eq_false_iff]

theorem reverse_chain_of_anyAsc (comp : Cmp α) (l : List α)
    (h : anyAsc comp l = false) : List.Chain' (le comp) l.reverse := by
  rw [List.chain'_reverse]
  have h2 := (anyAsc_false_iff_chain comp l).mp h
  exact h2.imp (fun {a b} hab => hab)

theorem chain_to_sortedLe {comp : Cmp α} (h : IsSWO comp) {l : List α}
    (hc : List.Chain' (le comp) l) : SortedLe comp l := by
  haveI : IsTrans α (le comp) := ⟨fun a b c h1 h2 => h.le_trans h1 h2⟩
  exact List.chain'_iff_pairwise.mp hc

theorem sortedLe_to_chain {comp : Cmp α} {l : List α}
    (hp : SortedLe comp l) : List.Chain' (le comp) l := by
  induction l with
  | nil => exact List.chain'_nil
  | cons a t ih =>
    rw [List.chain'_cons']
    refine ⟨?_, ih (List.Pairwise.of_cons hp)⟩
    intro y hy
    cases t with
    | nil => simp at hy
    | cons b t2 =>
      simp at hy
      subst hy
      exact List.rel_of_pairwise_cons hp (List.mem_cons_self b t2)

theorem lt_all_of_chain {comp : Cmp α} (h : IsSWO comp) {first val : α} {racc : List α}
    (hs : List.Chain' (le comp) (first :: racc)) (hval : comp val first = true) :
    ∀ x ∈ first :: racc, comp val x = true := by
  intro x hx
  rcases List.mem_cons.mp hx with rfl | hx
  · exact hval
  · have hp := chain_to_sortedLe h hs
    exact h.lt_of_lt_of_le hval (List.rel_of_pairwise_cons hp hx)

theorem insertStep_chain {comp : Cmp α} (h : IsSWO comp) (acc : List α) (val : α)
    (hs : List.Chain' (le comp) acc) :
    List.Chain' (le comp) (insertStep comp acc val) := by
  cases acc with
  | nil => simp [insertStep]
  | cons first racc =>
    cases hvf : comp val first with
    | true =>
      have hgoal : insertStep comp (first :: racc) val = val :: first :: racc := by
        simp [insertStep, hvf]
      rw [hgoal, List.chain'_cons]
      exact ⟨h.asymm hvf, hs⟩
    | false =>
      have hgoal : insertStep comp (first :: racc) val =
          (insTail comp val (first :: racc).reverse).reverse := by
        simp [insertStep, hvf]
      rw [hgoal]
      obtain ⟨v, u, hr, hins, hv, hu⟩ := insTail_decomp comp val (first :: racc).reverse
      rw [hins, List.chain'_reverse]
      have hacc : List.Chain' (flip (le comp)) (v ++ u) := by
        rw [← hr, ← List.chain'_reverse]
        simpa using hs
      have happ := List.chain'_append.mp hacc
      rw [List.chain'_append]
      refine ⟨happ.1, ?_, ?_⟩
      · rw [List.chain'_cons']
        refine ⟨?_, happ.2.1⟩
        intro y hy
        cases u with
        | nil => simp at hy
        | cons x u2 =>
          simp at hy
          subst hy
          exact hu _ _ rfl
      · intro x hx y hy
        simp at hy
        subst hy
        exact h.asymm (hv x (List.mem_of_mem_getLast? hx))

theorem foldl_insertStep_chain {comp : Cmp α} (h : IsSWO comp) :
    ∀ (l acc : List α), List.Chain' (le comp) acc →
      List.Chain' (le comp) (l.foldl (insertStep comp) acc) := by
  intro l
  induction l with
  | nil => intro acc hacc; exact hacc
  | cons x t ih =>
    intro acc hacc
    exact ih _ (insertStep_chain h acc x hacc)

theorem insertionSortC_sortedLe {comp : Cmp α} (h : IsSWO comp) (l : List α) :
    SortedLe comp (insertionSortC comp l) :=
  chain_to_sortedLe h (foldl_insertStep_chain h l [] List.chain'_nil)

end Ips4o

namespace Ips4o

variable {α : Type}

theorem insertStep_filter {comp : Cmp α} (h : IsSWO comp) (p : α → Bool)
    (hp : ∀ x y, p x = true → p y = true → comp x y = false)
    (acc : List α) (val : α) (hs : List.Chain' (le comp) acc) :
    (insertStep comp acc val).filter p = (acc ++ [val]).filter p := by
  cases acc with
  | nil => simp [insertStep]
  | cons first racc =>
    cases hvf : comp val first with
    | true =>
      have hgoal : insertStep comp (first :: racc) val = val :: first :: racc := by
        simp [insertStep, hvf]
      rw [hgoal]
      cases hpv : p val with
      | false => simp [List.filter_append, hpv, List.filter_cons, hpv]
      | true =>
        have hall : ∀ x ∈ first :: racc, p x = false := by
          intro x hx
          cases hpx : p x
          · rfl
          · have hlt := lt_all_of_chain h hs hvf x hx
            rw [hp val x hpv hpx] at hlt
            exact Bool.noConfusion hlt
        have hpf : p first = false := hall first (List.mem_cons_self _ _)
        have hrn : racc.filter p = [] := by
          rw [List.filter_eq_nil_iff]
          intro x hx hpx
          rw [hall x (List.mem_cons_of_mem _ hx)] at hpx
          exact Bool.noConfusion hpx
        simp [List.filter_append, List.filter_cons, hpv, hpf, hrn]
    | false =>
      have hgoal : insertStep comp (first :: racc) val =
          (insTail comp val (first :: racc).reverse).reverse := by
        simp [insertStep, hvf]
      rw [hgoal]
      obtain ⟨v, u, hr, hins, hv, hu⟩ := insTail_decomp comp val (first :: racc).reverse
      have hacc : (first :: racc) = u.reverse ++ v.reverse := by
        have h2 : ((first :: racc).reverse).reverse = (v ++ u).reverse := by rw [hr]
        simpa using h2
      rw [hins, hacc]
      rw [List.filter_reverse, List.filter_append, List.filter_append,
        List.filter_append, List.filter_reverse, List.filter_reverse]
      cases hpv : p val with
      | false =>
        simp [List.filter_cons, hpv, List.filter_reverse]
      | true =>
        have hvnil : v.filter p = [] := by
          rw [List.filter_eq_nil_iff]
          intro x hx hpx
          have hlt := hv x hx
          rw [hp val x hpv (by simpa using hpx)] at hlt
          exact Bool.noConfusion hlt
        simp [List.filter_cons, hpv, hvnil, List.filter_reverse]

theorem foldl_insertStep_filter {comp : Cmp α} (h : IsSWO comp) (p : α → Bool)
    (hp : ∀ x y, p x = true → p y = true → comp x y = false) :
    ∀ (l acc : List α), List.Chain' (le comp) acc →
      (l.foldl (insertStep comp) acc).filter p = acc.filter p ++ l.filter p := by
  intro l
  induction l with
  | nil => intro acc hacc; simp
  | cons x t ih =>
    intro acc hacc
    rw [List.foldl_cons, ih _ (insertStep_chain h acc x hacc),
      insertStep_filter h p hp acc x hacc]
    simp [List.filter_append, List.filter_cons]
    cases hpx : p x <;> simp

theorem insertionSortC_filter {comp : Cmp α} (h : IsSWO comp) (p : α → Bool)
    (hp : ∀ x y, p x = true → p y = true → comp x y = false) (l : List α) :
    (insertionSortC comp l).filter p = l.filter p := by
  simpa using foldl_insertStep_filter h p hp l [] List.chain'_nil

theorem eqv_incomp {comp : Cmp α} (h : IsSWO comp) {a x y : α}
    (hx : eqvB comp x a = true) (hy : eqvB comp y a = true) : comp x y = false := by
  unfold eqvB at hx hy
  rw [Bool.and_eq_true, Bool.not_eq_true', Bool.not_eq_true'] at hx hy
  cases hxy : comp x y
  · rfl
  · have h2 := h.lt_of_lt_of_le hxy hy.2
    rw [hx.1] at h2
    exact Bool.noConfusion h2

theorem onFst_isSWO {comp : Cmp α} (h : IsSWO comp) : IsSWO (onFst comp) where
  irrefl := fun a => h.irrefl a.1
  trans := fun hab hbc => h.trans hab hbc
  le_trans := fun hab hbc => h.le_trans hab hbc

end Ips4o

namespace Ips4o

variable {α : Type}

theorem slice_getElem (b e : ℕ) (buf : List α) (k : ℕ) :
    (slice b e buf)[k]? = if k < e - b then buf[b + k]? else none := by
  unfold slice
  rw [List.getElem?_take]
  split
  · rw [List.getElem?_drop]
  · rfl

theorem slice_length (b e : ℕ) (buf : List α) (h1 : b ≤ e) (h2 : e ≤ buf.length) :
    (slice b e buf).length = e - b := by
  unfold slice
  rw [List.length_take, List.length_drop]
  omega

theorem slice_eq_of_agree (p q : ℕ) {xs ys : List α}
    (hagree : ∀ i, p ≤ i → i < q → xs[i]? = ys[i]?) : slice p q xs = slice p q ys := by
  apply List.ext_getElem?
  intro k
  rw [slice_getElem, slice_getElem]
  split
  · exact hagree (p + k) (Nat.le_add_right p k) (by omega)
  · rfl

theorem applySlice_length (b e : ℕ) (f : List α → List α) (buf : List α)
    (h1 : b ≤ e) (h2 : e ≤ buf.length)
    (hflen : (f (slice b e buf)).length = e - b) :
    (applySlice b e f buf).length = buf.length := by
  unfold applySlice
  rw [List.length_append, List.length_append, List.length_take, List.length_drop, hflen]
  omega

theorem applySlice_agree (b e : ℕ) (f : List α → List α) (buf : List α)
    (h1 : b ≤ e) (h2 : e ≤ buf.length)
    (hflen : (f (slice b e buf)).length = e - b) :
    Agree b e (applySlice b e f buf) buf := by
  intro i hi
  unfold applySlice
  rw [List.append_assoc, List.getElem?_append]
  rcases hi with hlt | hge
  · rw [if_pos (by rw [List.length_take]; omega), List.getElem?_take, if_pos hlt]
  · rw [if_neg (by rw [List.length_take]; omega)]
    rw [List.getElem?_append, if_neg (by rw [hflen, List.length_take]; omega)]
    rw [List.getElem?_drop, hflen, List.length_take]
    congr 1
    omega

theorem slice_applySlice (b e : ℕ) (f : List α → List α) (buf : List α)
    (h1 : b ≤ e) (h2 : e ≤ buf.length)
    (hflen : (f (slice b e buf)).length = e - b) :
    slice b e (applySlice b e f buf) = f (slice b e buf) := by
  apply List.ext_getElem?
  intro k
  rw [slice_getElem]
  unfold applySlice
  split
  · next hk =>
    rw [List.append_assoc, List.getElem?_append,
      if_neg (by rw [List.length_take]; omega),
      List.getElem?_append, if_pos (by rw [hflen, List.length_take]; omega)]
    congr 1
    rw [List.length_take]
    omega
  · next hk =>
    rw [eq_comm, List.getElem?_eq_none]
    rw [hflen]
    omega

theorem slice_append_split (b i e : ℕ) (buf : List α) (hbi : b ≤ i) (hie : i ≤ e) :
    slice b e buf = slice b i buf ++ slice i e buf := by
  unfold slice
  have he : e - b = (i - b) + (e - i) := by omega
  rw [he, List.take_add]
  congr 1
  rw [List.drop_drop]
  congr 2
  omega

theorem slice_perm_of_inner {p q b e : ℕ} (hb : b ≤ p) (hq : p ≤ q) (he : q ≤ e)
    {xs ys : List α}
    (hagree : ∀ i, i < p ∨ q ≤ i → xs[i]? = ys[i]?)
    (hperm : (slice p q xs).Perm (slice p q ys)) :
    (slice b e xs).Perm (slice b e ys) := by
  rw [slice_append_split b p e xs hb (le_trans hq he),
    slice_append_split p q e xs hq he,
    slice_append_split b p e ys hb (le_trans hq he),
    slice_append_split p q e ys hq he]
  have hl : slice b p xs = slice b p ys :=
    slice_eq_of_agree b p (fun i _ h2 => hagree i (Or.inl h2))
  have hr : slice q e xs = slice q e ys :=
    slice_eq_of_agree q e (fun i h1 _ => hagree i (Or.inr h1))
  rw [hl, hr]
  exact List.Perm.append_left _ (List.Perm.append_right _ hperm)

theorem agree_trans {lo hi : ℕ} {xs ys zs : List α}
    (h1 : Agree lo hi xs ys) (h2 : Agree lo hi ys zs) : Agree lo hi xs zs :=
  fun i hi2 => (h1 i hi2).trans (h2 i hi2)

theorem agree_mono {lo hi lo2 hi2 : ℕ} {xs ys : List α} (hlo : lo ≤ lo2) (hhi : hi2 ≤ hi)
    (h : Agree lo2 hi2 xs ys) : Agree lo hi xs ys := by
  intro i hi3
  apply h
  omega

theorem agree_refl (lo hi : ℕ) (xs : List α) : Agree lo hi xs xs := fun _ _ => rfl

end Ips4o

namespace Ips4o

variable {α : Type}

theorem mem_of_mem_slice {x : α} {p q : ℕ} {l : List α} (h : x ∈ slice p q l) : x ∈ l := by
  unfold slice at h
  exact ((List.take_sublist _ _).trans (List.drop_sublist _ _)).mem h

theorem slice_zero_append (A B : List α) : slice 0 A.length (A ++ B) = A := by
  unfold slice
  simpa using List.take_left A B

theorem slice_add_append (A B : List α) (p q : ℕ) :
    slice (A.length + p) (A.length + q) (A ++ B) = slice p q B := by
  unfold slice
  rw [List.drop_append]
  congr 1
  omega

theorem pcs_map (f : ℕ → ℕ) (xs : List ℕ) :
    pcs (xs.map f) = (pcs xs).map (Prod.map f f) := by
  unfold pcs
  rw [← List.map_tail, List.zip_map]

theorem filter_length_sum (p : α → Bool) (l : List α) :
    (l.filter p).length + (l.filter (fun x => !p x)).length = l.length := by
  have h := (List.filter_append_perm p l).length_eq
  simpa using h

theorem multiPart_starts_le (comp : Cmp α) :
    ∀ (sps l : List α), ∀ x ∈ (multiPart comp sps l).2, x ≤ l.length := by
  intro sps
  induction sps with
  | nil => intro l x hx; simp [multiPart] at hx
  | cons sp sps ih =>
    intro l x hx
    simp only [multiPart] at hx
    rcases List.mem_cons.mp hx with rfl | hx2
    · exact List.length_filter_le _ _
    · obtain ⟨y, hy, rfl⟩ := List.mem_map.mp hx2
      have h1 := ih _ y hy
      have h2 := filter_length_sum (fun x => comp x sp) l
      simp only at h1 h2
      omega

theorem chain_le_map_add (k : ℕ) {xs : List ℕ} (h : List.Chain' (· ≤ ·) xs) :
    List.Chain' (· ≤ ·) (xs.map (· + k)) := by
  rw [List.chain'_map]
  exact List.Chain'.imp (fun a b hab => Nat.add_le_add_right hab k) h

theorem multiPart_starts_chain (comp : Cmp α) :
    ∀ (sps l : List α),
      List.Chain' (· ≤ ·) (0 :: (multiPart comp sps l).2 ++ [l.length]) := by
  intro sps
  induction sps with
  | nil =>
    intro l
    simp [multiPart]
  | cons sp sps ih =>
    intro l
    simp only [multiPart]
    have hlen : l.length = (l.filter (fun x => !comp x sp)).length +
        (l.filter (fun x => comp x sp)).length := by
      have h2 := filter_length_sum (fun x => comp x sp) l
      omega
    have hsh : (0 : ℕ) :: ((l.filter (fun x => comp x sp)).length ::
        ((multiPart comp sps (l.filter (fun x => !comp x sp))).2.map
          (· + (l.filter (fun x => comp x sp)).length))) ++ [l.length] =
        0 :: ((0 :: (multiPart comp sps (l.filter (fun x => !comp x sp))).2 ++
          [(l.filter (fun x => !comp x sp)).length]).map
            (· + (l.filter (fun x => comp x sp)).length)) := by
      simp [hlen]
    rw [hsh]
    rw [List.chain'_cons']
    constructor
    · intro y hy
      simp at hy
      omega
    · exact chain_le_map_add _ (ih _)

end Ips4o

namespace Ips4o

variable {α : Type}

theorem multiPart_cross {comp : Cmp α} (h : IsSWO comp) :
    ∀ (sps l : List α),
      List.Pairwise (Cross comp)
        ((pcs (0 :: (multiPart comp sps l).2 ++ [l.length])).map
          (fun pq => slice pq.1 pq.2 (multiPart comp sps l).1)) := by
  intro sps
  induction sps with
  | nil =>
    intro l
    simp only [multiPart, List.nil_append]
    unfold pcs
    simp
  | cons sp sps ih =>
    intro l
    simp only [multiPart]
    have hlen : l.length = (l.filter (fun x => !comp x sp)).length +
        (l.filter (fun x => comp x sp)).length := by
      have h2 := filter_length_sum (fun x => comp x sp) l
      omega
    have hsh : (0 : ℕ) :: ((l.filter (fun x => comp x sp)).length ::
        ((multiPart comp sps (l.filter (fun x => !comp x sp))).2.map
          (· + (l.filter (fun x => comp x sp)).length))) ++ [l.length] =
        0 :: ((0 :: (multiPart comp sps (l.filter (fun x => !comp x sp))).2 ++
          [(l.filter (fun x => !comp x sp)).length]).map
            (· + (l.filter (fun x => comp x sp)).length)) := by
      simp [hlen]
    rw [hsh]
    set k := (l.filter (fun x => comp x sp)).length with hk
    set tr := l.filter (fun x => comp x sp) with htr
    set fl := l.filter (fun x => !comp x sp) with hfl
    set pts2 := 0 :: (multiPart comp sps fl).2 ++ [fl.length] with hpts2
    have hpts2ne : pts2 = 0 :: ((multiPart comp sps fl).2 ++ [fl.length]) := by
      simp [hpts2]
    have hmap : pts2.map (· + k) = k :: ((multiPart comp sps fl).2 ++ [fl.length]).map (· + k) := by
      rw [hpts2ne]
      simp
    have hpcs : pcs (0 :: pts2.map (· + k)) =
        (0, k) :: (pcs pts2).map (Prod.map (· + k) (· + k)) := by
      rw [← pcs_map, hmap]
      rfl
    rw [hpcs]
    rw [List.map_cons, List.map_map]
    have hblock0 : slice ((0:ℕ), k).1 ((0:ℕ), k).2 (tr ++ (multiPart comp sps fl).1) = tr := by
      show slice 0 k (tr ++ (multiPart comp sps fl).1) = tr
      rw [hk, htr]
      exact slice_zero_append _ _
    have hblocks : ((pcs pts2).map
        ((fun pq => slice pq.1 pq.2 (tr ++ (multiPart comp sps fl).1)) ∘ Prod.map (· + k) (· + k))) =
        (pcs pts2).map (fun pq => slice pq.1 pq.2 (multiPart comp sps fl).1) := by
      apply List.map_congr_left
      intro pq _
      show slice (pq.1 + k) (pq.2 + k) (tr ++ (multiPart comp sps fl).1) = _
      have hkk : k = tr.length := by rw [hk, htr]
      rw [hkk, Nat.add_comm pq.1, Nat.add_comm pq.2]
      exact slice_add_append _ _ _ _
    rw [hblock0, hblocks]
    rw [List.pairwise_cons]
    constructor
    · intro X hX
      obtain ⟨pq, hpq, rfl⟩ := List.mem_map.mp hX
      intro x hx y hy
      have hxtr : comp x sp = true := by
        rw [htr] at hx
        exact (List.mem_filter.mp hx).2
      have hyfl : comp y sp = false := by
        have hymem : y ∈ (multiPart comp sps fl).1 := mem_of_mem_slice hy
        have hyfl2 : y ∈ fl := (multiPart_perm comp sps fl).mem_iff.mp hymem
        rw [hfl] at hyfl2
        have h3 := (List.mem_filter.mp hyfl2).2
        simpa using h3
      cases hyx : comp y x
      · rfl
      · have h2 := h.trans hyx hxtr
        rw [hyfl] at h2
        exact Bool.noConfusion h2
    · exact ih fl

end Ips4o

namespace Ips4o

variable {α : Type} [Inhabited α]

theorem buf_split (b e : ℕ) (buf : List α) (h1 : b ≤ e) (h2 : e ≤ buf.length) :
    buf = buf.take b ++ slice b e buf ++ buf.drop e := by
  unfold slice
  rw [List.append_assoc]
  have h3 : buf.drop b = (buf.drop b).take (e - b) ++ buf.drop e := by
    have h4 := List.take_append_drop (e - b) (buf.drop b)
    rw [List.drop_drop] at h4
    rw [show b + (e - b) = e from by omega] at h4
    exact h4.symm
  rw [← h3, List.take_append_drop]

theorem applySlice_perm (b e : ℕ) (f : List α → List α) (buf : List α)
    (h1 : b ≤ e) (h2 : e ≤ buf.length)
    (hf : (f (slice b e buf)).Perm (slice b e buf)) :
    (applySlice b e f buf).Perm buf := by
  conv_rhs => rw [buf_split b e buf h1 h2]
  unfold applySlice
  exact List.Perm.append_right _ (List.Perm.append_left _ hf)

theorem step_nil (cfg : Cfg) (comp : Cmp α) (rand : ℕ → ℕ) (buf : List α) (rc : ℕ) :
    step cfg comp rand ⟨buf, [], rc⟩ = ⟨buf, [], rc⟩ := rfl

theorem step_cons (cfg : Cfg) (comp : Cmp α) (rand : ℕ → ℕ) (buf : List α)
    (t : Task α) (rest : List (Task α)) (rc : ℕ) :
    step cfg comp rand ⟨buf, t :: rest, rc⟩ =
      ⟨(stepTop cfg comp rand buf t rc).1,
       (stepTop cfg comp rand buf t rc).2.1 ++ rest,
       (stepTop cfg comp rand buf t rc).2.2⟩ := rfl

theorem stepN_add (cfg : Cfg) (comp : Cmp α) (rand : ℕ → ℕ) :
    ∀ (a b : ℕ) (s : M α), stepN cfg comp rand (a + b) s =
      stepN cfg comp rand b (stepN cfg comp rand a s) := by
  intro a
  induction a with
  | zero => intro b s; rw [Nat.zero_add]; rfl
  | succ a ih =>
    intro b s
    have h1 : a + 1 + b = (a + b) + 1 := by omega
    rw [h1]
    show stepN cfg comp rand (a + b) (step cfg comp rand s) = _
    rw [ih]
    rfl

theorem stepN_empty (cfg : Cfg) (comp : Cmp α) (rand : ℕ → ℕ) :
    ∀ (n : ℕ) (s : M α), s.stack = [] → stepN cfg comp rand n s = s := by
  intro n
  induction n with
  | zero => intro s _; rfl
  | succ n ih =>
    intro s hs
    show stepN cfg comp rand n (step cfg comp rand s) = s
    have hstep : step cfg comp rand s = s := by
      obtain ⟨buf, stack, rc⟩ := s
      simp only at hs
      subst hs
      rfl
    rw [hstep]
    exact ih s hs

theorem stepTop_simple {cfg : Cfg} {comp : Cmp α} {rand : ℕ → ℕ} {buf : List α}
    {t : Task α} {rc : ℕ} (ht : t.state = .simpleCases) :
    stepTop cfg comp rand buf t rc = handleSimple comp buf t rc := by
  unfold stepTop
  rw [ht]

theorem stepTop_base {cfg : Cfg} {comp : Cmp α} {rand : ℕ → ℕ} {buf : List α}
    {t : Task α} {rc : ℕ} (ht : t.state = .baseCase) :
    stepTop cfg comp rand buf t rc = handleBase cfg comp buf t rc := by
  unfold stepTop
  rw [ht]

theorem stepTop_sampleSelect {cfg : Cfg} {comp : Cmp α} {rand : ℕ → ℕ} {buf : List α}
    {t : Task α} {rc : ℕ} (ht : t.state = .sampleSelect) :
    stepTop cfg comp rand buf t rc = handleSampleSelect cfg rand buf t rc := by
  unfold stepTop
  rw [ht]

theorem stepTop_sampleSorted {cfg : Cfg} {comp : Cmp α} {rand : ℕ → ℕ} {buf : List α}
    {t : Task α} {rc : ℕ} (ht : t.state = .sampleSorted) :
    stepTop cfg comp rand buf t rc = handleSampleSorted comp buf t rc := by
  unfold stepTop
  rw [ht]

theorem stepTop_classify {cfg : Cfg} {comp : Cmp α} {rand : ℕ → ℕ} {buf : List α}
    {t : Task α} {rc : ℕ} (ht : t.state = .classify) :
    stepTop cfg comp rand buf t rc = handleClassify comp buf t rc := by
  unfold stepTop
  rw [ht]

theorem stepTop_partition {cfg : Cfg} {comp : Cmp α} {rand : ℕ → ℕ} {buf : List α}
    {t : Task α} {rc : ℕ} (ht : t.state = .partition) :
    stepTop cfg comp rand buf t rc = handlePartition comp buf t rc := by
  unfold stepTop
  rw [ht]

theorem stepTop_recurse {cfg : Cfg} {comp : Cmp α} {rand : ℕ → ℕ} {buf : List α}
    {t : Task α} {rc : ℕ} (ht : t.state = .recurse) :
    stepTop cfg comp rand buf t rc = handleRecurse buf t rc := by
  unfold stepTop
  rw [ht]

end Ips4o

namespace Ips4o

variable {α : Type} [Inhabited α]

theorem stepTop_perm_WF (cfg : Cfg) (comp : Cmp α) (rand : ℕ → ℕ) (buf : List α)
    (t : Task α) (rc : ℕ) (hwf : WFt buf.length t) :
    (stepTop cfg comp rand buf t rc).1.Perm buf ∧
    ∀ u ∈ (stepTop cfg comp rand buf t rc).2.1, WFt buf.length u := by
  obtain ⟨hbe, hel, hbs⟩ := hwf
  cases ht : t.state with
  | simpleCases =>
    rw [stepTop_simple ht]
    unfold handleSimple
    split
    · exact ⟨List.Perm.refl _, by simp⟩
    · split
      · exact ⟨List.Perm.refl _, by simp⟩
      · split
        · split
          · refine ⟨List.Perm.refl _, ?_⟩
            intro u hu
            simp at hu
            subst hu
            exact ⟨hbe, hel, hbs⟩
          · exact ⟨applySlice_perm t.b t.e _ buf hbe hel (List.reverse_perm _), by simp⟩
        · split
          · exact ⟨List.Perm.refl _, by simp⟩
          · refine ⟨List.Perm.refl _, ?_⟩
            intro u hu
            simp at hu
            subst hu
            exact ⟨hbe, hel, hbs⟩
  | baseCase =>
    rw [stepTop_base ht]
    unfold handleBase
    split
    · exact ⟨applySlice_perm t.b t.e _ buf hbe hel (insertionSortC_perm comp _), by simp⟩
    · refine ⟨List.Perm.refl _, ?_⟩
      intro u hu
      simp at hu
      subst hu
      exact ⟨hbe, hel, hbs⟩
  | sampleSelect =>
    rw [stepTop_sampleSelect ht]
    unfold handleSampleSelect
    simp only
    constructor
    · exact applySlice_perm t.b t.e _ buf hbe hel (shuffleGo_perm rand rc _ _ 0 _)
    · intro u hu
      simp at hu
      rcases hu with rfl | rfl
      · refine ⟨Nat.le_add_right _ _, ?_, by simp⟩
        have hm : min (max 1 (cfg.oversamplingFactor (t.e - t.b)) * 2 ^ cfg.logBuckets (t.e - t.b) - 1)
            ((t.e - t.b) / 2) ≤ (t.e - t.b) / 2 := Nat.min_le_right _ _
        simp only
        omega
      · exact ⟨hbe, hel, hbs⟩
  | sampleSorted =>
    rw [stepTop_sampleSorted ht]
    unfold handleSampleSorted
    refine ⟨List.Perm.refl _, ?_⟩
    intro u hu
    simp at hu
    subst hu
    exact ⟨hbe, hel, hbs⟩
  | classify =>
    rw [stepTop_classify ht]
    unfold handleClassify
    refine ⟨List.Perm.refl _, ?_⟩
    intro u hu
    simp at hu
    subst hu
    exact ⟨hbe, hel, hbs⟩
  | partition =>
    rw [stepTop_partition ht]
    unfold handlePartition
    simp only
    constructor
    · exact applySlice_perm t.b t.e _ buf hbe hel (multiPart_perm comp _ _)
    · intro u hu
      simp at hu
      subst hu
      refine ⟨hbe, hel, ?_⟩
      intro x hx
      show x ≤ t.e - t.b
      simp at hx
      rcases hx with rfl | hx | rfl
      · omega
      · have h1 := multiPart_starts_le comp t.splitters (slice t.b t.e buf) x hx
        rw [slice_length t.b t.e buf hbe hel] at h1
        exact h1
      · omega
  | recurse =>
    rw [stepTop_recurse ht]
    unfold handleRecurse
    refine ⟨List.Perm.refl _, ?_⟩
    intro u hu
    unfold recurseTasks at hu
    obtain ⟨pq, hpq, hu2⟩ := List.mem_filterMap.mp hu
    by_cases h1 : 1 < pq.2 - pq.1
    · rw [if_pos h1] at hu2
      cases hu2
      have hq : pq.2 ∈ t.bucket_starts := by
        have h2 := List.of_mem_zip hpq
        exact List.mem_of_mem_tail h2.2
      have h3 := hbs pq.2 hq
      exact ⟨by simp; omega, by simp; omega, by simp⟩
    · rw [if_neg h1] at hu2
      exact Option.noConfusion hu2

theorem step_WFm (cfg : Cfg) (comp : Cmp α) (rand : ℕ → ℕ) (s : M α) (hwf : WFm s) :
    WFm (step cfg comp rand s) ∧ (step cfg comp rand s).buf.Perm s.buf := by
  obtain ⟨buf, stack, rc⟩ := s
  cases stack with
  | nil => exact ⟨hwf, List.Perm.refl _⟩
  | cons t rest =>
    have hwt : WFt buf.length t := hwf t (List.mem_cons_self t rest)
    have h2 := stepTop_perm_WF cfg comp rand buf t rc hwt
    rw [step_cons]
    refine ⟨?_, h2.1⟩
    intro u hu
    simp only [List.mem_append] at hu
    have hlen : (stepTop cfg comp rand buf t rc).1.length = buf.length := h2.1.length_eq
    simp only [M.buf] at hu ⊢
    rw [hlen]
    rcases hu with hu | hu
    · exact h2.2 u hu
    · exact hwf u (List.mem_cons_of_mem t hu)

theorem stepN_WFm (cfg : Cfg) (comp : Cmp α) (rand : ℕ → ℕ) :
    ∀ (n : ℕ) (s : M α), WFm s →
      WFm (stepN cfg comp rand n s) ∧ (stepN cfg comp rand n s).buf.Perm s.buf := by
  intro n
  induction n with
  | zero => intro s hwf; exact ⟨hwf, List.Perm.refl _⟩
  | succ n ih =>
    intro s hwf
    have h1 := step_WFm cfg comp rand s hwf
    have h2 := ih (step cfg comp rand s) h1.1
    exact ⟨h2.1, h2.2.trans h1.2⟩

theorem initM_WFm (buf : List α) : WFm (initM buf) := by
  intro t ht
  simp [initM] at ht
  subst ht
  exact ⟨Nat.zero_le _, Nat.le.refl, by simp⟩

end Ips4o

namespace Ips4o

variable {α : Type} {β : Type}

theorem slice_self_nil (b : ℕ) (buf : List α) : slice b b buf = [] := by
  simp [slice]

theorem pairwise_short {R : α → α → Prop} {l : List α} (h : l.length ≤ 1) :
    List.Pairwise R l := by
  cases l with
  | nil => exact List.Pairwise.nil
  | cons a t =>
    cases t with
    | nil => simp
    | cons b t2 => simp at h

theorem pcs_chain_facts :
    ∀ xs : List ℕ, List.Chain' (· ≤ ·) xs →
      (∀ pq ∈ pcs xs, pq.1 ≤ pq.2 ∧ ∀ x0 ∈ xs.head?, x0 ≤ pq.1) ∧
      List.Pairwise (fun pq1 pq2 : ℕ × ℕ => pq1.2 ≤ pq2.1) (pcs xs) := by
  intro xs
  induction xs with
  | nil => intro _; exact ⟨by simp [pcs], by simp [pcs]⟩
  | cons x ys ih =>
    intro hch
    cases ys with
    | nil => exact ⟨by simp [pcs], by simp [pcs]⟩
    | cons y rest =>
      rw [List.chain'_cons] at hch
      obtain ⟨hxy, hch2⟩ := hch
      have ihr := ih hch2
      have hpcs : pcs (x :: y :: rest) = (x, y) :: pcs (y :: rest) := rfl
      rw [hpcs]
      constructor
      · intro pq hpq
        rcases List.mem_cons.mp hpq with rfl | hpq2
        · exact ⟨hxy, by intro x0 hx0; simp at hx0; omega⟩
        · have h2 := (ihr.1 pq hpq2)
          refine ⟨h2.1, ?_⟩
          intro x0 hx0
          simp at hx0
          have h3 := h2.2 y (by simp)
          omega
      · rw [List.pairwise_cons]
        refine ⟨?_, ihr.2⟩
        intro pq hpq
        have h3 := (ihr.1 pq hpq).2 y (by simp)
        exact h3

theorem pairwise_mem_rel {γ : Type} {R : γ → γ → Prop} :
    ∀ {l : List γ}, List.Pairwise R l → ∀ a ∈ l, ∀ b ∈ l, a = b ∨ R a b ∨ R b a := by
  intro l
  induction l with
  | nil => intro _ a ha; simp at ha
  | cons x t ih =>
    intro hp a ha b hb
    rcases List.mem_cons.mp ha with rfl | ha2
    · rcases List.mem_cons.mp hb with rfl | hb2
      · exact Or.inl rfl
      · exact Or.inr (Or.inl (List.rel_of_pairwise_cons hp hb2))
    · rcases List.mem_cons.mp hb with rfl | hb2
      · exact Or.inr (Or.inr (List.rel_of_pairwise_cons hp ha2))
      · exact ih (List.Pairwise.of_cons hp) a ha2 b hb2

theorem slice_slice (b e p q : ℕ) (xs : List α) (hq : q ≤ e - b) :
    slice p q (slice b e xs) = slice (b + p) (b + q) xs := by
  apply List.ext_getElem?
  intro k
  rw [slice_getElem, slice_getElem, slice_getElem]
  by_cases hk : k < q - p
  · rw [if_pos hk, if_pos (by omega), if_pos (by omega)]
    congr 1
    omega
  · rw [if_neg hk, if_neg (by omega)]

theorem flatten_map_perm (L : List β) (f g : β → List α)
    (h : ∀ x ∈ L, (f x).Perm (g x)) :
    ((L.map f).flatten).Perm ((L.map g).flatten) := by
  induction L with
  | nil => simp
  | cons x t ih =>
    simp only [List.map_cons, List.flatten_cons]
    exact List.Perm.append (h x (List.mem_cons_self x t))
      (ih (fun y hy => h y (List.mem_cons_of_mem x hy)))

theorem flatten_slices (buf : List α) :
    ∀ (mid : List ℕ) (p q : ℕ), List.Chain' (· ≤ ·) (p :: mid ++ [q]) →
      p ≤ q ∧
      ((pcs (p :: mid ++ [q])).map (fun pq => slice pq.1 pq.2 buf)).flatten =
        slice p q buf := by
  intro mid
  induction mid with
  | nil =>
    intro p q hch
    have hch3 : List.Chain' (· ≤ ·) (p :: q :: ([] : List ℕ)) := by simpa using hch
    rw [List.chain'_cons] at hch3
    refine ⟨hch3.1, ?_⟩
    show ((pcs [p, q]).map (fun pq => slice pq.1 pq.2 buf)).flatten = slice p q buf
    simp [pcs]
  | cons m mid ih =>
    intro p q hch
    have hch3 : List.Chain' (· ≤ ·) (p :: m :: (mid ++ [q])) := by simpa using hch
    rw [List.chain'_cons] at hch3
    have hch2 : List.Chain' (· ≤ ·) (m :: mid ++ [q]) := hch3.2
    have hpm : p ≤ m := hch3.1
    obtain ⟨hmq, hflat⟩ := ih m q hch2
    refine ⟨le_trans hpm hmq, ?_⟩
    have hpcs : pcs (p :: (m :: mid) ++ [q]) = (p, m) :: pcs (m :: mid ++ [q]) := rfl
    rw [hpcs, List.map_cons, List.flatten_cons, hflat]
    exact (slice_append_split p m q buf hpm hmq).symm

end Ips4o

namespace Ips4o

variable {α : Type} [Inhabited α]

theorem runTasks_sound (cfg : Cfg) (comp : Cmp α) (rand : ℕ → ℕ) (hswo : IsSWO comp) :
    ∀ (fuel : ℕ), ∀ (B R : List (Task α)) (buf : List α) (rc : ℕ),
      (∀ t ∈ B, t.state = .simpleCases ∧ t.b ≤ t.e ∧ t.e ≤ buf.length) →
      List.Pairwise (fun t u : Task α => t.e ≤ u.b ∨ u.e ≤ t.b) B →
      (stepN cfg comp rand fuel ⟨buf, B ++ R, rc⟩).stack = [] →
      ∃ k buf2 rc2, k ≤ fuel ∧
        stepN cfg comp rand k ⟨buf, B ++ R, rc⟩ = ⟨buf2, R, rc2⟩ ∧
        buf2.length = buf.length ∧
        (∀ i : ℕ, (∀ t ∈ B, i < t.b ∨ t.e ≤ i) → buf2[i]? = buf[i]?) ∧
        ∀ t ∈ B, (slice t.b t.e buf2).Perm (slice t.b t.e buf) ∧
          SortedLe comp (slice t.b t.e buf2) := by
  intro fuel
  induction fuel using Nat.strong_induction_on with
  | _ fuel IH =>
  intro B R buf rc hOK hdisj hdone
  cases B with
  | nil =>
    exact ⟨0, buf, rc, Nat.zero_le _, rfl, rfl, fun i _ => rfl, by simp⟩
  | cons t B2 =>
    obtain ⟨hts, hbe, hel⟩ := hOK t (List.mem_cons_self t B2)
    have hOK2 : ∀ u ∈ B2, u.state = .simpleCases ∧ u.b ≤ u.e ∧ u.e ≤ buf.length :=
      fun u hu => hOK u (List.mem_cons_of_mem t hu)
    have hdisj2 : List.Pairwise (fun t u : Task α => t.e ≤ u.b ∨ u.e ≤ t.b) B2 :=
      List.Pairwise.of_cons hdisj
    have htout : ∀ i, t.b ≤ i → i < t.e → ∀ u ∈ B2, i < u.b ∨ u.e ≤ i := by
      intro i h1 h2 u hu
      rcases List.rel_of_pairwise_cons hdisj hu with hd | hd
      · left; omega
      · right; omega
    -- fuel bound: while the stack is visibly nonempty, fuel has not run out
    have hlt : ∀ (j : ℕ) (bufj : List α) (tj : Task α) (restj : List (Task α)) (rcj : ℕ),
        stepN cfg comp rand j ⟨buf, (t :: B2) ++ R, rc⟩ = ⟨bufj, tj :: restj, rcj⟩ →
        j < fuel := by
      intro j bufj tj restj rcj heq
      by_contra hge
      push_neg at hge
      have h1 : stepN cfg comp rand j ⟨buf, (t :: B2) ++ R, rc⟩ =
          stepN cfg comp rand (j - fuel) (stepN cfg comp rand fuel ⟨buf, (t :: B2) ++ R, rc⟩) := by
        rw [← stepN_add]
        congr 1
        omega
      rw [stepN_empty cfg comp rand (j - fuel) _ hdone] at h1
      rw [heq] at h1
      have h2 := congrArg M.stack h1
      simp only at h2
      rw [hdone] at h2
      exact List.noConfusion h2
    have hfuel1 : 0 < fuel := hlt 0 buf t (B2 ++ R) rc rfl
    -- the pop continuation: after j steps the stack is B2 ++ R with t's slice
    -- sorted in place and nothing else changed
    have popCont : ∀ (j : ℕ) (buf1 : List α) (rc1 : ℕ), 1 ≤ j → j ≤ fuel →
        stepN cfg comp rand j ⟨buf, (t :: B2) ++ R, rc⟩ = ⟨buf1, B2 ++ R, rc1⟩ →
        buf1.length = buf.length →
        Agree t.b t.e buf1 buf →
        (slice t.b t.e buf1).Perm (slice t.b t.e buf) →
        SortedLe comp (slice t.b t.e buf1) →
        ∃ k buf2 rc2, k ≤ fuel ∧
          stepN cfg comp rand k ⟨buf, (t :: B2) ++ R, rc⟩ = ⟨buf2, R, rc2⟩ ∧
          buf2.length = buf.length ∧
          (∀ i : ℕ, (∀ u ∈ t :: B2, i < u.b ∨ u.e ≤ i) → buf2[i]? = buf[i]?) ∧
          ∀ u ∈ t :: B2, (slice u.b u.e buf2).Perm (slice u.b u.e buf) ∧
            SortedLe comp (slice u.b u.e buf2) := by
      intro j buf1 rc1 hj1 hjf heq hlen1 hagree1 hperm1 hsort1
      have hdone1 : (stepN cfg comp rand (fuel - j) ⟨buf1, B2 ++ R, rc1⟩).stack = [] := by
        rw [← heq, ← stepN_add]
        rw [show j + (fuel - j) = fuel from by omega]
        exact hdone
      have hOK2b : ∀ u ∈ B2, u.state = .simpleCases ∧ u.b ≤ u.e ∧ u.e ≤ buf1.length := by
        intro u hu
        rw [hlen1]
        exact hOK2 u hu
      obtain ⟨k2, buf2, rc2, hk2, heq2, hlen2, hout2, hsl2⟩ :=
        IH (fuel - j) (by omega) B2 R buf1 rc1 hOK2b hdisj2 hdone1
      refine ⟨j + k2, buf2, rc2, by omega, ?_, hlen2.trans hlen1, ?_, ?_⟩
      · rw [stepN_add, heq, heq2]
      · intro i hi
        have h1 : buf2[i]? = buf1[i]? :=
          hout2 i (fun u hu => hi u (List.mem_cons_of_mem t hu))
        rw [h1]
        exact hagree1 i (hi t (List.mem_cons_self t B2))
      · intro u hu
        rcases List.mem_cons.mp hu with rfl | hu2
        · -- the task u = t itself: its slice was finished at step j and B2's
          -- processing does not touch it
          have hsliceq : slice u.b u.e buf2 = slice u.b u.e buf1 := by
            apply slice_eq_of_agree
            intro i h1 h2
            exact hout2 i (fun v hv => htout i h1 h2 v hv)
          rw [hsliceq]
          exact ⟨hperm1, hsort1⟩
        · -- a task of B2: finished by the recursive run; transfer its slice
          -- permutation from buf1 to buf
          obtain ⟨hperm2, hsort2⟩ := hsl2 u hu2
          refine ⟨hperm2.trans ?_, hsort2⟩
          have hsliceq : slice u.b u.e buf1 = slice u.b u.e buf := by
            apply slice_eq_of_agree
            intro i h1 h2
            apply hagree1
            rcases List.rel_of_pairwise_cons hdisj hu2 with hd | hd
            · right; omega
            · left; omega
          rw [hsliceq]
      -- end popCont
    -- one step of the SIMPLE_CASES dispatch
    have hstep1 := step_cons cfg comp rand buf t (B2 ++ R) rc
    rw [stepTop_simple hts] at hstep1
    by_cases hbe0 : t.b = t.e
    · -- empty range: pop immediately
      have hh : handleSimple comp buf t rc = ⟨buf, [], rc⟩ := by
        unfold handleSimple
        rw [if_pos hbe0]
      rw [hh] at hstep1
      apply popCont 1 buf rc (Nat.le.refl) hfuel1
      · have h0 : stepN cfg comp rand 1 ⟨buf, (t :: B2) ++ R, rc⟩ =
            step cfg comp rand ⟨buf, (t :: B2) ++ R, rc⟩ := rfl
        rw [h0]
        simp only [List.cons_append]
        rw [hstep1]
        rfl
      · rfl
      · exact agree_refl _ _ _
      · exact List.Perm.refl _
      · rw [← hbe0, slice_self_nil]
        exact List.Pairwise.nil
    · -- non-empty range
      have hblt : t.b < t.e := lt_of_le_of_ne hbe hbe0
      have hslen : (slice t.b t.e buf).length = t.e - t.b := slice_length t.b t.e buf hbe hel
      cases hsl : slice t.b t.e buf with
      | nil =>
        exfalso
        rw [hsl] at hslen
        simp at hslen
        omega
      | cons a as =>
        -- the continuation used whenever the task falls through to BASE_CASE
        have baseCont : handleSimple comp buf t rc = ⟨buf, [{ t with state := .baseCase }], rc⟩ →
            ∃ k buf2 rc2, k ≤ fuel ∧
              stepN cfg comp rand k ⟨buf, (t :: B2) ++ R, rc⟩ = ⟨buf2, R, rc2⟩ ∧
              buf2.length = buf.length ∧
              (∀ i : ℕ, (∀ u ∈ t :: B2, i < u.b ∨ u.e ≤ i) → buf2[i]? = buf[i]?) ∧
              ∀ u ∈ t :: B2, (slice u.b u.e buf2).Perm (slice u.b u.e buf) ∧
                SortedLe comp (slice u.b u.e buf2) := by
          intro hh
          rw [hh] at hstep1
          have heq1 : stepN cfg comp rand 1 ⟨buf, (t :: B2) ++ R, rc⟩ =
              ⟨buf, { t with state := .baseCase } :: (B2 ++ R), rc⟩ := by
            have h0 : stepN cfg comp rand 1 ⟨buf, (t :: B2) ++ R, rc⟩ =
                step cfg comp rand ⟨buf, (t :: B2) ++ R, rc⟩ := rfl
            rw [h0]
            simp only [List.cons_append]
            rw [hstep1]
            rfl
          have hstep2 := step_cons cfg comp rand buf { t with state := .baseCase } (B2 ++ R) rc
          rw [stepTop_base rfl] at hstep2
          by_cases hthr : t.e - t.b ≤ cfg.baseThreshold
          · -- base case fires: insertion sort in place, pop at step 2
            have hh2 : handleBase cfg comp buf { t with state := .baseCase } rc =
                ⟨applySlice t.b t.e (insertionSortC comp) buf, [], rc⟩ := by
              unfold handleBase
              rw [if_pos hthr]
            rw [hh2] at hstep2
            have h2f : 1 < fuel := hlt 1 buf { t with state := .baseCase } (B2 ++ R) rc heq1
            have hsortlen : ((insertionSortC comp) (slice t.b t.e buf)).length = t.e - t.b := by
              rw [insertionSortC_length, hslen]
            apply popCont 2 (applySlice t.b t.e (insertionSortC comp) buf) rc (by omega) (by omega)
            · rw [show (2 : ℕ) = 1 + 1 from rfl, stepN_add, heq1]
              have h0 : stepN cfg comp rand 1
                  ⟨buf, { t with state := .baseCase } :: (B2 ++ R), rc⟩ =
                  step cfg comp rand ⟨buf, { t with state := .baseCase } :: (B2 ++ R), rc⟩ := rfl
              rw [h0, hstep2]
              rfl
            · exact applySlice_length t.b t.e _ buf hbe hel hsortlen
            · exact applySlice_agree t.b t.e _ buf hbe hel hsortlen
            · rw [slice_applySlice t.b t.e _ buf hbe hel hsortlen]
              exact insertionSortC_perm comp _
            · rw [slice_applySlice t.b t.e _ buf hbe hel hsortlen]
              exact insertionSortC_sortedLe hswo _
          · -- above the threshold: the sampling path
            have hh2 : handleBase cfg comp buf { t with state := .baseCase } rc =
                ⟨buf, [{ t with state := .sampleSelect }], rc⟩ := by
              simp [handleBase, hthr]
            rw [hh2] at hstep2
            have heq2 : stepN cfg comp rand 2 ⟨buf, (t :: B2) ++ R, rc⟩ =
                ⟨buf, { t with state := .sampleSelect } :: (B2 ++ R), rc⟩ := by
              rw [show (2 : ℕ) = 1 + 1 from rfl, stepN_add, heq1]
              have h0 : stepN cfg comp rand 1
                  ⟨buf, { t with state := .baseCase } :: (B2 ++ R), rc⟩ =
                  step cfg comp rand ⟨buf, { t with state := .baseCase } :: (B2 ++ R), rc⟩ := rfl
              rw [h0, hstep2]
              rfl
            set st := max 1 (cfg.oversamplingFactor (t.e - t.b)) with hst_def
            set nb := 2 ^ cfg.logBuckets (t.e - t.b) with hnb_def
            set m := min (st * nb - 1) ((t.e - t.b) / 2) with hm_def
            set buf3 := applySlice t.b t.e (shuffleGo rand rc (t.e - t.b) m 0) buf with hbuf3_def
            set child := ({ b := t.b, e := t.b + m, state := .simpleCases } : Task α) with hchild_def
            set ctx := ({ t with state := .sampleSorted, log_buckets := cfg.logBuckets (t.e - t.b), num_buckets := nb, step := st, num_samples := m } : Task α) with hctx_def
            have hm_le2 : m ≤ (t.e - t.b) / 2 := by
              rw [hm_def]
              exact Nat.min_le_right _ _
            have hm_le : t.b + m ≤ t.e := by
              have h2 := Nat.div_le_self (t.e - t.b) 2
              omega
            have hstep3full : stepN cfg comp rand 3 ⟨buf, (t :: B2) ++ R, rc⟩ =
                ⟨buf3, child :: (ctx :: (B2 ++ R)), rc + m⟩ := by
              rw [show (3 : ℕ) = 2 + 1 from rfl, stepN_add, heq2]
              rfl
            have h3lt : 3 < fuel := hlt 3 buf3 child (ctx :: (B2 ++ R)) (rc + m) hstep3full
            have hdone3 : (stepN cfg comp rand (fuel - 3)
                ⟨buf3, child :: (ctx :: (B2 ++ R)), rc + m⟩).stack = [] := by
              rw [← hstep3full, ← stepN_add, show 3 + (fuel - 3) = fuel from by omega]
              exact hdone
            have hshlen : (shuffleGo rand rc (t.e - t.b) m 0 (slice t.b t.e buf)).length =
                t.e - t.b := by
              rw [shuffleGo_length, hslen]
            have hlen3 : buf3.length = buf.length := by
              rw [hbuf3_def]
              exact applySlice_length t.b t.e _ buf hbe hel hshlen
            obtain ⟨kc, buf4, rc4, hkc, heqc, hlen4, houtc, hslc⟩ :=
              IH (fuel - 3) (by omega) [child] (ctx :: (B2 ++ R)) buf3 (rc + m)
                (by intro u hu
                    simp at hu
                    subst hu
                    refine ⟨rfl, Nat.le_add_right _ _, ?_⟩
                    show t.b + m ≤ buf3.length
                    rw [hlen3]
                    omega)
                (by simp)
                hdone3
            have heq4full : stepN cfg comp rand (3 + kc) ⟨buf, (t :: B2) ++ R, rc⟩ =
                ⟨buf4, ctx :: (B2 ++ R), rc4⟩ := by
              rw [stepN_add, hstep3full]
              exact heqc
            have houtc' : ∀ i, i < t.b ∨ t.b + m ≤ i → buf4[i]? = buf3[i]? := by
              intro i hi
              apply houtc
              intro u hu
              simp at hu
              subst hu
              show i < t.b ∨ t.b + m ≤ i
              exact hi
            have hlen4' : buf4.length = buf.length := hlen4.trans hlen3
            set sps := (if 0 < m ∧ 0 < st then
                buildSplitters comp (slice t.b (t.b + m) buf4) st nb else ([] : List α))
              with hsps_def
            set r2 := multiPart comp sps (slice t.b t.e buf4) with hr_def
            set starts := 0 :: (r2.2 ++ [t.e - t.b]) with hstarts_def
            set buf7 := applySlice t.b t.e (fun _ => r2.1) buf4 with hbuf7_def
            set Bks := (recurseTasks starts t.b : List (Task α)) with hBks_def
            have heq7full : stepN cfg comp rand (3 + kc + 4) ⟨buf, (t :: B2) ++ R, rc⟩ =
                ⟨buf7, Bks ++ (B2 ++ R), rc4⟩ := by
              rw [show 3 + kc + 4 = (3 + kc) + 4 from rfl, stepN_add, heq4full]
              rfl
            have heq7m1 : stepN cfg comp rand (3 + kc + 3) ⟨buf, (t :: B2) ++ R, rc⟩ =
                ⟨buf7, { ctx with splitters := sps, bucket_counts := classifyCounts comp sps (slice t.b t.e buf4) (List.replicate (sps.length + 1) 0), bucket_starts := starts, state := .recurse } :: (B2 ++ R), rc4⟩ := by
              rw [show 3 + kc + 3 = (3 + kc) + 3 from rfl, stepN_add, heq4full]
              rfl
            have h7lt : 3 + kc + 3 < fuel := hlt _ _ _ _ _ heq7m1
            have hdone7 : (stepN cfg comp rand (fuel - (3 + kc + 4))
                ⟨buf7, Bks ++ (B2 ++ R), rc4⟩).stack = [] := by
              rw [← heq7full, ← stepN_add,
                show (3 + kc + 4) + (fuel - (3 + kc + 4)) = fuel from by omega]
              exact hdone
            have habs4 : (slice t.b t.e buf4).length = t.e - t.b :=
              slice_length t.b t.e buf4 hbe (by rw [hlen4']; exact hel)
            have hchainrel : List.Chain' (· ≤ ·) starts := by
              have h1 := multiPart_starts_chain comp sps (slice t.b t.e buf4)
              rw [habs4] at h1
              exact h1
            have hstartsle : ∀ x ∈ starts, x ≤ t.e - t.b := by
              intro x hx
              rw [hstarts_def] at hx
              simp at hx
              rcases hx with rfl | hx | rfl
              · omega
              · have h2 := multiPart_starts_le comp sps (slice t.b t.e buf4) x (by rw [← hr_def]; exact hx)
                rw [habs4] at h2
                exact h2
              · omega
            have hpf := pcs_chain_facts starts hchainrel
            have hpq_le : ∀ pq ∈ pcs starts, pq.1 ≤ pq.2 ∧ pq.2 ≤ t.e - t.b := by
              intro pq hpq
              refine ⟨(hpf.1 pq hpq).1, ?_⟩
              have h2 := List.of_mem_zip hpq
              exact hstartsle pq.2 (List.mem_of_mem_tail h2.2)
            have hBk_mem : ∀ u ∈ Bks, ∃ pq, pq ∈ pcs starts ∧ 1 < pq.2 - pq.1 ∧
                u = { b := t.b + pq.1, e := t.b + pq.2, state := .simpleCases } := by
              intro u hu
              rw [hBks_def] at hu
              unfold recurseTasks at hu
              obtain ⟨pq, hpq, hu2⟩ := List.mem_filterMap.mp hu
              by_cases h1 : 1 < pq.2 - pq.1
              · rw [if_pos h1] at hu2
                cases hu2
                exact ⟨pq, hpq, h1, rfl⟩
              · rw [if_neg h1] at hu2
                exact Option.noConfusion hu2
            have hBk_intro : ∀ pq ∈ pcs starts, 1 < pq.2 - pq.1 →
                ({ b := t.b + pq.1, e := t.b + pq.2, state := .simpleCases } : Task α) ∈ Bks := by
              intro pq hpq h1
              rw [hBks_def]
              unfold recurseTasks
              exact List.mem_filterMap.mpr ⟨pq, hpq, by rw [if_pos h1]⟩
            have hinb : ∀ u ∈ Bks, t.b ≤ u.b ∧ u.e ≤ t.e ∧ u.b ≤ u.e ∧
                u.state = .simpleCases := by
              intro u hu
              obtain ⟨pq, hpq, hbig, rfl⟩ := hBk_mem u hu
              have h2 := hpq_le pq hpq
              exact ⟨Nat.le_add_right _ _, by show t.b + pq.2 ≤ t.e; omega,
                by show t.b + pq.1 ≤ t.b + pq.2; omega, rfl⟩
            have hflen7 : ((fun _ => r2.1) (slice t.b t.e buf4)).length = t.e - t.b := by
              show r2.1.length = t.e - t.b
              rw [hr_def, multiPart_length]
              exact habs4
            have hlen7 : buf7.length = buf.length := by
              rw [hbuf7_def,
                applySlice_length t.b t.e _ buf4 hbe (by rw [hlen4']; exact hel) hflen7]
              exact hlen4'
            have hslice7 : slice t.b t.e buf7 = r2.1 := by
              rw [hbuf7_def]
              exact slice_applySlice t.b t.e _ buf4 hbe (by rw [hlen4']; exact hel) hflen7
            have hOK7 : ∀ u ∈ Bks ++ B2,
                u.state = .simpleCases ∧ u.b ≤ u.e ∧ u.e ≤ buf7.length := by
              intro u hu
              rcases List.mem_append.mp hu with hu | hu
              · obtain ⟨h1, h2, h3, h4⟩ := hinb u hu
                refine ⟨h4, h3, ?_⟩
                rw [hlen7]
                omega
              · obtain ⟨ha, hb2, hc⟩ := hOK2 u hu
                refine ⟨ha, hb2, ?_⟩
                rw [hlen7]
                exact hc
            have hdisj7 : List.Pairwise (fun t u : Task α => t.e ≤ u.b ∨ u.e ≤ t.b)
                (Bks ++ B2) := by
              rw [List.pairwise_append]
              refine ⟨?_, hdisj2, ?_⟩
              · rw [hBks_def]
                unfold recurseTasks
                refine List.Pairwise.filterMap _ ?_ hpf.2
                intro pq1 pq2 hrel c hc d hd
                by_cases h1 : 1 < pq1.2 - pq1.1
                · rw [if_pos h1] at hc
                  simp at hc
                  subst hc
                  by_cases h2 : 1 < pq2.2 - pq2.1
                  · rw [if_pos h2] at hd
                    simp at hd
                    subst hd
                    left
                    show t.b + pq1.2 ≤ t.b + pq2.1
                    omega
                  · rw [if_neg h2] at hd
                    simp at hd
                · rw [if_neg h1] at hc
                  simp at hc
              · intro u hu v hv
                obtain ⟨h1, h2, h3, _⟩ := hinb u hu
                rcases List.rel_of_pairwise_cons hdisj hv with hd | hd
                · left; omega
                · right; omega
            obtain ⟨k8, buf8, rc8, hk8, heq8, hlen8, hout8, hsl8⟩ :=
              IH (fuel - (3 + kc + 4)) (by omega) (Bks ++ B2) R buf7 rc4 hOK7 hdisj7
                (by rw [List.append_assoc]; exact hdone7)
            refine ⟨(3 + kc + 4) + k8, buf8, rc8, by omega, ?_, hlen8.trans hlen7, ?_, ?_⟩
            · rw [stepN_add, heq7full, ← List.append_assoc]
              exact heq8
            · -- agreement outside the ranges of t :: B2
              intro i hi
              have hit : i < t.b ∨ t.e ≤ i := hi t (List.mem_cons_self t B2)
              have e8 : buf8[i]? = buf7[i]? := by
                apply hout8
                intro u hu
                rcases List.mem_append.mp hu with hu | hu
                · obtain ⟨h1, h2, _, _⟩ := hinb u hu
                  rcases hit with hcase | hcase
                  · left; omega
                  · right; omega
                · exact hi u (List.mem_cons_of_mem t hu)
              have e7 : buf7[i]? = buf4[i]? := by
                rw [hbuf7_def]
                exact applySlice_agree t.b t.e _ buf4 hbe (by rw [hlen4']; exact hel)
                  hflen7 i hit
              have e4 : buf4[i]? = buf3[i]? := by
                apply houtc'
                rcases hit with hcase | hcase
                · left; exact hcase
                · right; omega
              have e3 : buf3[i]? = buf[i]? := by
                rw [hbuf3_def]
                exact applySlice_agree t.b t.e _ buf hbe hel hshlen i hit
              rw [e8, e7, e4, e3]
            · -- per-task slice permutation and sortedness
              intro u hu
              rcases List.mem_cons.mp hu with rfl | hu2
              · -- the task u itself
                have hA : (slice u.b u.e buf3).Perm (slice u.b u.e buf) := by
                  rw [hbuf3_def, slice_applySlice u.b u.e _ buf hbe hel hshlen]
                  exact shuffleGo_perm rand rc _ m 0 _
                have hcp : (slice u.b (u.b + m) buf4).Perm (slice u.b (u.b + m) buf3) :=
                  (hslc child (by simp)).1
                have hB : (slice u.b u.e buf4).Perm (slice u.b u.e buf3) :=
                  slice_perm_of_inner (Nat.le_refl u.b) (Nat.le_add_right u.b m) hm_le
                    (fun i hi => houtc' i hi) hcp
                have hC : (slice u.b u.e buf7).Perm (slice u.b u.e buf4) := by
                  rw [hslice7, hr_def]
                  exact multiPart_perm comp sps _
                have habs : starts.map (fun x => u.b + x) =
                    u.b :: ((r2.2.map (fun x => u.b + x)) ++ [u.e]) := by
                  rw [hstarts_def]
                  have h1 : u.b + (u.e - u.b) = u.e := by omega
                  simp [h1]
                have hchain_abs : List.Chain' (· ≤ ·)
                    (u.b :: ((r2.2.map (fun x => u.b + x)) ++ [u.e])) := by
                  rw [← habs, List.chain'_map]
                  exact List.Chain'.imp (fun a b hab => Nat.add_le_add_left hab u.b) hchainrel
                have habs_pcs : pcs ((u.b :: (r2.2.map (fun x => u.b + x))) ++ [u.e]) =
                    (pcs starts).map (Prod.map (fun x => u.b + x) (fun x => u.b + x)) := by
                  show pcs (u.b :: ((r2.2.map (fun x => u.b + x)) ++ [u.e])) = _
                  rw [← habs]
                  exact pcs_map _ _
                have hflat8 := flatten_slices buf8 (r2.2.map (fun x => u.b + x)) u.b u.e hchain_abs
                have hflat7 := flatten_slices buf7 (r2.2.map (fun x => u.b + x)) u.b u.e hchain_abs
                have hslice8_flat : slice u.b u.e buf8 =
                    ((pcs starts).map (fun pq => slice (u.b + pq.1) (u.b + pq.2) buf8)).flatten := by
                  rw [← hflat8.2, habs_pcs, List.map_map]
                  rfl
                have hslice7_flat : slice u.b u.e buf7 =
                    ((pcs starts).map (fun pq => slice (u.b + pq.1) (u.b + pq.2) buf7)).flatten := by
                  rw [← hflat7.2, habs_pcs, List.map_map]
                  rfl
                have hblockperm : ∀ pq ∈ pcs starts,
                    (slice (u.b + pq.1) (u.b + pq.2) buf8).Perm
                      (slice (u.b + pq.1) (u.b + pq.2) buf7) := by
                  intro pq hpq
                  by_cases hbig : 1 < pq.2 - pq.1
                  · exact (hsl8 _ (List.mem_append.mpr (Or.inl (hBk_intro pq hpq hbig)))).1
                  · have heqq : slice (u.b + pq.1) (u.b + pq.2) buf8 =
                        slice (u.b + pq.1) (u.b + pq.2) buf7 := by
                      apply slice_eq_of_agree
                      intro i h1 h2
                      apply hout8
                      intro v hv
                      rcases List.mem_append.mp hv with hv | hv
                      · obtain ⟨pq2, hpq2, hbig2, rfl⟩ := hBk_mem v hv
                        have hne : pq ≠ pq2 := by
                          intro hcontra
                          rw [hcontra] at hbig
                          exact hbig hbig2
                        rcases pairwise_mem_rel hpf.2 pq hpq pq2 hpq2 with heq2 | hrel | hrel
                        · exact absurd heq2 hne
                        · left
                          show i < u.b + pq2.1
                          omega
                        · right
                          show u.b + pq2.2 ≤ i
                          omega
                      · have hq2 := hpq_le pq hpq
                        exact htout i (by omega) (by omega) v hv
                    rw [heqq]
                have hD : (slice u.b u.e buf8).Perm (slice u.b u.e buf7) := by
                  rw [hslice8_flat, hslice7_flat]
                  exact flatten_map_perm _ _ _ hblockperm
                refine ⟨((hD.trans hC).trans hB).trans hA, ?_⟩
                rw [hslice8_flat]
                unfold SortedLe
                rw [List.pairwise_flatten]
                constructor
                · intro blk hblk
                  obtain ⟨pq, hpq, rfl⟩ := List.mem_map.mp hblk
                  by_cases hbig : 1 < pq.2 - pq.1
                  · exact (hsl8 _ (List.mem_append.mpr (Or.inl (hBk_intro pq hpq hbig)))).2
                  · apply pairwise_short
                    have hq2 := hpq_le pq hpq
                    rw [slice_length _ _ _ (by omega) (by rw [hlen8.trans hlen7]; omega)]
                    omega
                · rw [List.pairwise_map]
                  have hcross7 := multiPart_cross hswo sps (slice u.b u.e buf4)
                  rw [habs4] at hcross7
                  rw [← hr_def] at hcross7
                  have hsd2 : ((0 :: r2.2) ++ [u.e - u.b] : List ℕ) = starts := by
                    simp [hstarts_def]
                  rw [hsd2] at hcross7
                  rw [List.pairwise_map] at hcross7
                  have hconv : ∀ pq ∈ pcs starts,
                      slice pq.1 pq.2 r2.1 = slice (u.b + pq.1) (u.b + pq.2) buf7 := by
                    intro pq hpq
                    rw [← hslice7, slice_slice u.b u.e pq.1 pq.2 buf7 (hpq_le pq hpq).2]
                  apply List.Pairwise.imp_of_mem ?_ hcross7
                  intro pq1 pq2 h1m h2m hcr
                  intro x hx y hy
                  have hx7 : x ∈ slice (u.b + pq1.1) (u.b + pq1.2) buf7 :=
                    (hblockperm pq1 h1m).mem_iff.mp hx
                  have hy7 : y ∈ slice (u.b + pq2.1) (u.b + pq2.2) buf7 :=
                    (hblockperm pq2 h2m).mem_iff.mp hy
                  rw [← hconv pq1 h1m] at hx7
                  rw [← hconv pq2 h2m] at hy7
                  exact hcr x hx7 y hy7
              · -- a sibling from B2
                obtain ⟨hp8, hs8⟩ := hsl8 u (List.mem_append.mpr (Or.inr hu2))
                refine ⟨hp8.trans ?_, hs8⟩
                have hu_out : ∀ i, u.b ≤ i → i < u.e → (i < t.b ∨ t.e ≤ i) := by
                  intro i h1 h2
                  rcases List.rel_of_pairwise_cons hdisj hu2 with hd | hd
                  · right; omega
                  · left; omega
                have q7 : slice u.b u.e buf7 = slice u.b u.e buf4 :=
                  slice_eq_of_agree _ _ (fun i h1 h2 => by
                    rw [hbuf7_def]
                    exact applySlice_agree t.b t.e _ buf4 hbe (by rw [hlen4']; exact hel)
                      hflen7 i (hu_out i h1 h2))
                have q4 : slice u.b u.e buf4 = slice u.b u.e buf3 :=
                  slice_eq_of_agree _ _ (fun i h1 h2 => by
                    apply houtc'
                    rcases hu_out i h1 h2 with hcase | hcase
                    · left; exact hcase
                    · right; omega)
                have q3 : slice u.b u.e buf3 = slice u.b u.e buf :=
                  slice_eq_of_agree _ _ (fun i h1 h2 => by
                    rw [hbuf3_def]
                    exact applySlice_agree t.b t.e _ buf hbe hel hshlen i (hu_out i h1 h2))
                rw [q7, q4, q3]
        cases hcmp : comp (List.getLastD as a) a with
        | false =>
          cases hsort : sortedAdj comp (a :: as) with
          | true =>
            -- already sorted: pop untouched
            have hh : handleSimple comp buf t rc = ⟨buf, [], rc⟩ := by
              unfold handleSimple
              rw [if_neg hbe0]
              simp only [hsl]
              rw [hcmp, hsort]
              simp
            rw [hh] at hstep1
            apply popCont 1 buf rc Nat.le.refl hfuel1
            · have h0 : stepN cfg comp rand 1 ⟨buf, (t :: B2) ++ R, rc⟩ =
                  step cfg comp rand ⟨buf, (t :: B2) ++ R, rc⟩ := rfl
              rw [h0]
              simp only [List.cons_append]
              rw [hstep1]
              rfl
            · rfl
            · exact agree_refl _ _ _
            · exact List.Perm.refl _
            · rw [hsl]
              exact chain_to_sortedLe hswo ((sortedAdj_iff_chain comp _).mp hsort)
          | false =>
            apply baseCont
            unfold handleSimple
            rw [if_neg hbe0]
            simp only [hsl]
            rw [hcmp, hsort]
            simp
        | true =>
          cases hasc : anyAsc comp (a :: as) with
          | true =>
            apply baseCont
            unfold handleSimple
            rw [if_neg hbe0]
            simp only [hsl]
            rw [hcmp, hasc]
            simp
          | false =>
            -- non-strictly descending: reverse in place and pop
            have hh : handleSimple comp buf t rc =
                ⟨applySlice t.b t.e List.reverse buf, [], rc⟩ := by
              unfold handleSimple
              rw [if_neg hbe0]
              simp only [hsl]
              rw [hcmp, hasc]
              simp
            rw [hh] at hstep1
            have hrevlen : ((slice t.b t.e buf).reverse).length = t.e - t.b := by
              rw [List.length_reverse, hslen]
            apply popCont 1 (applySlice t.b t.e List.reverse buf) rc Nat.le.refl hfuel1
            · have h0 : stepN cfg comp rand 1 ⟨buf, (t :: B2) ++ R, rc⟩ =
                  step cfg comp rand ⟨buf, (t :: B2) ++ R, rc⟩ := rfl
              rw [h0]
              simp only [List.cons_append]
              rw [hstep1]
              rfl
            · exact applySlice_length t.b t.e _ buf hbe hel hrevlen
            · exact applySlice_agree t.b t.e _ buf hbe hel hrevlen
            · rw [slice_applySlice t.b t.e _ buf hbe hel hrevlen]
              exact List.reverse_perm _
            · rw [slice_applySlice t.b t.e _ buf hbe hel hrevlen, hsl]
              exact chain_to_sortedLe hswo (reverse_chain_of_anyAsc comp _ hasc)

end Ips4o

/-! ## Helper layer for the claim theorems -/

namespace Ips4o

variable {α : Type}

theorem natLt_isSWO : IsSWO natLt := by
  refine ⟨fun a => by simp [natLt], ?_, ?_⟩
  · intro a b c h1 h2
    simp [natLt] at h1 h2 ⊢
    omega
  · intro a b c h1 h2
    simp [natLt] at h1 h2 ⊢
    omega

theorem slice_full (l : List α) : slice 0 l.length l = l := by
  simp [slice]

theorem replicate_getD (m i : ℕ) (v d : α) (h : i < m) :
    (List.replicate m v).getD i d = v := by
  unfold List.getD
  rw [List.get?_eq_getElem?, List.getElem?_replicate, if_pos h]
  rfl
theorem splitCands_lt (st m : ℕ) : ∀ i ∈ splitCands st m, i < m := by
  intro i hi
  unfold splitCands at hi
  exact List.mem_range.mp (List.mem_filter.mp hi).1

theorem splitCands_mem (st m : ℕ) (h1 : 0 < st) (h2 : st ≤ m) :
    st - 1 ∈ splitCands st m := by
  unfold splitCands
  rw [List.mem_filter]
  refine ⟨List.mem_range.mpr (by omega), ?_⟩
  have h3 : (st - 1) % st = st - 1 := Nat.mod_eq_of_lt (by omega)
  simp [h3]

theorem bsGo_replicate [Inhabited α] (comp : Cmp α) (v : α) (m nb : ℕ)
    (hv : comp v v = false) :
    ∀ (is : List ℕ), (∀ i ∈ is, i < m) →
      bsGo comp (List.replicate m v) nb is [v] = [v] := by
  intro is
  induction is with
  | nil => intro _; rfl
  | cons i is ih =>
    intro hmem
    have hg : (List.replicate m v).getD i default = v :=
      replicate_getD m i v default (hmem i (List.mem_cons_self i is))
    have hstep : bsGo comp (List.replicate m v) nb (i :: is) [v] =
        bsGo comp (List.replicate m v) nb is [v] := by
      simp only [bsGo]
      rw [hg, hv]
      simp
    rw [hstep]
    exact ih (fun j hj => hmem j (List.mem_cons_of_mem i hj))
theorem buildSplitters_replicate [Inhabited α] (comp : Cmp α) (v : α) (m st nb : ℕ)
    (hv : comp v v = false) (hst : 0 < st) (hm : st ≤ m) (hnb : 2 ≤ nb) :
    buildSplitters comp (List.replicate m v) st nb = [v] := by
  unfold buildSplitters
  rw [List.length_replicate]
  cases hc : splitCands st m with
  | nil =>
    have := splitCands_mem st m hst hm
    rw [hc] at this
    simp at this
  | cons i is =>
    have hi : i < m := splitCands_lt st m i (by rw [hc]; exact List.mem_cons_self _ _)
    have his : ∀ j ∈ is, j < m := fun j hj =>
      splitCands_lt st m j (by rw [hc]; exact List.mem_cons_of_mem _ hj)
    have hstep : bsGo comp (List.replicate m v) nb (i :: is) [] =
        bsGo comp (List.replicate m v) nb is [(List.replicate m v).getD i default] := by
      simp only [bsGo]
      rw [if_pos (by omega : 0 < nb - 1)]
    rw [hstep, replicate_getD m i v default hi]
    exact bsGo_replicate comp v m nb hv is his
theorem bsGo_facts [Inhabited α] (comp : Cmp α) (sample : List α) (nb : ℕ) :
    ∀ (is : List ℕ) (acc : List α),
      List.Chain' (fun a b : α => comp b a = true) acc → acc.length ≤ nb - 1 →
      List.Chain' (fun a b : α => comp a b = true) (bsGo comp sample nb is acc) ∧
      (bsGo comp sample nb is acc).length ≤ nb - 1 := by
  intro is
  induction is with
  | nil =>
    intro acc hc hl
    constructor
    · show List.Chain' _ acc.reverse
      rw [List.chain'_reverse]
      exact hc.imp (fun a b h => h)
    · show acc.reverse.length ≤ nb - 1
      rw [List.length_reverse]
      exact hl
  | cons i is ih =>
    intro acc hc hl
    cases acc with
    | nil =>
      by_cases h0 : 0 < nb - 1
      · have hstep : bsGo comp sample nb (i :: is) [] =
            bsGo comp sample nb is [sample.getD i default] := by
          simp only [bsGo]
          rw [if_pos h0]
        rw [hstep]
        exact ih _ (List.chain'_singleton _) (by simp; omega)
      · have hstep : bsGo comp sample nb (i :: is) [] = bsGo comp sample nb is [] := by
          simp only [bsGo]
          rw [if_neg h0]
        rw [hstep]
        exact ih _ List.chain'_nil (by simp)
    | cons bk tl =>
      by_cases h1 : (bk :: tl).length < nb - 1
      · cases h2 : comp bk (sample.getD i default) with
        | true =>
          have hstep : bsGo comp sample nb (i :: is) (bk :: tl) =
              bsGo comp sample nb is (sample.getD i default :: bk :: tl) := by
            have hcond : (decide ((bk :: tl).length < nb - 1) &&
                comp bk (sample.getD i default)) = true := by
              rw [h2, Bool.and_true]
              exact decide_eq_true h1
            simp only [bsGo]
            rw [if_pos hcond]
          rw [hstep]
          refine ih _ (List.chain'_cons.mpr ⟨h2, hc⟩) ?_
          simp only [List.length_cons] at h1 ⊢
          omega
        | false =>
          have hstep : bsGo comp sample nb (i :: is) (bk :: tl) =
              bsGo comp sample nb is (bk :: tl) := by
            have hcond : (decide ((bk :: tl).length < nb - 1) &&
                comp bk (sample.getD i default)) = false := by
              rw [h2, Bool.and_false]
            simp only [bsGo]
            rw [if_neg (by rw [hcond]; exact Bool.false_ne_true)]
          rw [hstep]
          exact ih _ hc hl
      · have hstep : bsGo comp sample nb (i :: is) (bk :: tl) =
            bsGo comp sample nb is (bk :: tl) := by
          have hcond : (decide ((bk :: tl).length < nb - 1) &&
              comp bk (sample.getD i default)) = false := by
            rw [decide_eq_false h1, Bool.false_and]
          simp only [bsGo]
          rw [if_neg (by rw [hcond]; exact Bool.false_ne_true)]
        rw [hstep]
        exact ih _ hc hl
theorem chain_lt_to_pairwise {comp : Cmp α} (h : IsSWO comp) {l : List α}
    (hc : List.Chain' (fun a b : α => comp a b = true) l) :
    l.Pairwise (fun a b : α => comp a b = true) := by
  haveI : IsTrans α (fun a b : α => comp a b = true) := ⟨fun a b c h1 h2 => h.trans h1 h2⟩
  exact List.chain'_iff_pairwise.mp hc

theorem recurseTasks_degenerate (n base : ℕ) (hn : 1 < n) :
    (recurseTasks [0, 0, n] base : List (Task α)) =
      [{ b := base, e := base + n, state := State.simpleCases }] := by
  unfold recurseTasks
  have hp : pcs [0, 0, n] = [(0, 0), (0, n)] := rfl
  rw [hp]
  simp [hn]

end Ips4o

namespace Ips4o

variable {α : Type}

theorem eraseT_b (t : Task α) : (eraseT t).b = t.b := rfl

theorem eraseT_e (t : Task α) : (eraseT t).e = t.e := rfl

theorem eraseT_splitters (t : Task α) : (eraseT t).splitters = t.splitters := rfl

theorem eraseT_bucket_starts (t : Task α) : (eraseT t).bucket_starts = t.bucket_starts := rfl

theorem eraseT_num_samples (t : Task α) : (eraseT t).num_samples = t.num_samples := rfl

theorem eraseT_stride (t : Task α) : (eraseT t).step = t.step := rfl

theorem eraseT_num_buckets (t : Task α) : (eraseT t).num_buckets = t.num_buckets := rfl

theorem eraseT_state (t : Task α) (ht : ¬ t.state = State.classify) :
    (eraseT t).state = t.state := by
  unfold eraseT
  simp [ht]

theorem eraseT_with_state (t : Task α) (s : State) (hs : ¬ s = State.classify) :
    eraseT { t with state := s } = { eraseT t with state := s } := by
  unfold eraseT
  rw [if_neg hs]

theorem eraseT_fresh (b e : ℕ) :
    eraseT ({ b := b, e := e, state := State.simpleCases } : Task α) =
      { b := b, e := e, state := State.simpleCases } := rfl

theorem eraseT_recurseTasks (bs : List ℕ) (base : ℕ) :
    ((recurseTasks bs base : List (Task α)).map eraseT) = recurseTasks bs base := by
  unfold recurseTasks
  generalize pcs bs = l
  induction l with
  | nil => rfl
  | cons pq l ih =>
    by_cases h : 1 < pq.2 - pq.1 <;>
      simp [List.filterMap_cons, h, ih, eraseT_fresh]

theorem handleSimple_eraseT (comp : Cmp α) (buf : List α) (t : Task α) (rc : ℕ) :
    handleSimple comp buf (eraseT t) rc =
      ⟨(handleSimple comp buf t rc).1,
       ((handleSimple comp buf t rc).2.1).map eraseT,
       (handleSimple comp buf t rc).2.2⟩ := by
  unfold handleSimple
  rw [eraseT_b, eraseT_e]
  split
  · simp
  · split
    · simp
    · split
      · split
        · simp [eraseT_with_state, eraseT_b, eraseT_e]
        · simp
      · split
        · simp
        · simp [eraseT_with_state, eraseT_b, eraseT_e]

theorem handleBase_eraseT (cfg : Cfg) (comp : Cmp α) (buf : List α) (t : Task α) (rc : ℕ) :
    handleBase cfg comp buf (eraseT t) rc =
      ⟨(handleBase cfg comp buf t rc).1,
       ((handleBase cfg comp buf t rc).2.1).map eraseT,
       (handleBase cfg comp buf t rc).2.2⟩ := by
  unfold handleBase
  rw [eraseT_b, eraseT_e]
  split
  · simp
  · simp [eraseT_with_state, eraseT_b, eraseT_e]

theorem handleSampleSelect_eraseT (cfg : Cfg) (rand : ℕ → ℕ) (buf : List α)
    (t : Task α) (rc : ℕ) :
    handleSampleSelect cfg rand buf (eraseT t) rc =
      ⟨(handleSampleSelect cfg rand buf t rc).1,
       ((handleSampleSelect cfg rand buf t rc).2.1).map eraseT,
       (handleSampleSelect cfg rand buf t rc).2.2⟩ := rfl

theorem handleSampleSortedD_eraseT (comp : Cmp α) [Inhabited α] (buf : List α)
    (t : Task α) (rc : ℕ) :
    handleSampleSortedD comp buf (eraseT t) rc =
      ⟨(handleSampleSorted comp buf t rc).1,
       ((handleSampleSorted comp buf t rc).2.1).map eraseT,
       (handleSampleSorted comp buf t rc).2.2⟩ := by
  unfold handleSampleSorted handleSampleSortedD
  rw [eraseT_num_samples, eraseT_stride, eraseT_b, eraseT_num_buckets]
  rfl

theorem handlePartition_eraseT (comp : Cmp α) (buf : List α) (t : Task α) (rc : ℕ) :
    handlePartition comp buf (eraseT t) rc =
      ⟨(handlePartition comp buf t rc).1,
       ((handlePartition comp buf t rc).2.1).map eraseT,
       (handlePartition comp buf t rc).2.2⟩ := by
  unfold handlePartition
  rw [eraseT_b, eraseT_e, eraseT_splitters]
  rfl

theorem handleRecurse_eraseT (buf : List α) (t : Task α) (rc : ℕ) :
    handleRecurse buf (eraseT t) rc =
      ⟨(handleRecurse buf t rc).1,
       ((handleRecurse buf t rc).2.1).map eraseT,
       (handleRecurse buf t rc).2.2⟩ := by
  unfold handleRecurse
  rw [eraseT_bucket_starts, eraseT_b]
  exact (congrArg (fun l => ((buf, l, rc) : List α × List (Task α) × ℕ))
    (eraseT_recurseTasks t.bucket_starts t.b)).symm

end Ips4o

namespace Ips4o

variable {α : Type} [Inhabited α]

theorem eraseM_mk (buf : List α) (stack : List (Task α)) (rc : ℕ) :
    eraseM ⟨buf, stack, rc⟩ = ⟨buf, stack.map eraseT, rc⟩ := rfl

theorem eraseM_step_classify (cfg : Cfg) (comp : Cmp α) (rand : ℕ → ℕ)
    (buf : List α) (t : Task α) (rest : List (Task α)) (rc : ℕ)
    (ht : t.state = State.classify) :
    eraseM (step cfg comp rand ⟨buf, t :: rest, rc⟩) = eraseM ⟨buf, t :: rest, rc⟩ := by
  rw [step_cons, stepTop_classify ht]
  show eraseM ⟨buf,
    [{ t with bucket_counts := classifyCounts comp t.splitters (slice t.b t.e buf) t.bucket_counts,
               state := State.partition }] ++ rest, rc⟩ = _
  rw [eraseM_mk, eraseM_mk, List.cons_append, List.nil_append, List.map_cons, List.map_cons]
  have h2 : eraseT { t with
      bucket_counts := classifyCounts comp t.splitters (slice t.b t.e buf) t.bucket_counts,
      state := State.partition } = eraseT t := by
    unfold eraseT
    rw [ht]
    rfl
  rw [h2]

theorem stepD_nil (cfg : Cfg) (comp : Cmp α) (rand : ℕ → ℕ) (buf : List α) (rc : ℕ) :
    stepD cfg comp rand ⟨buf, [], rc⟩ = ⟨buf, [], rc⟩ := rfl

theorem stepD_cons (cfg : Cfg) (comp : Cmp α) (rand : ℕ → ℕ) (buf : List α)
    (t : Task α) (rest : List (Task α)) (rc : ℕ) :
    stepD cfg comp rand ⟨buf, t :: rest, rc⟩ =
      ⟨(stepTopD cfg comp rand buf t rc).1,
       (stepTopD cfg comp rand buf t rc).2.1 ++ rest,
       (stepTopD cfg comp rand buf t rc).2.2⟩ := rfl

theorem stepTopD_sampleSorted {cfg : Cfg} {comp : Cmp α} {rand : ℕ → ℕ} {buf : List α}
    {t : Task α} {rc : ℕ} (ht : t.state = State.sampleSorted) :
    stepTopD cfg comp rand buf t rc = handleSampleSortedD comp buf t rc := by
  unfold stepTopD
  rw [ht]

theorem stepTopD_other {cfg : Cfg} {comp : Cmp α} {rand : ℕ → ℕ} {buf : List α}
    {t : Task α} {rc : ℕ} (h1 : ¬ t.state = State.classify)
    (h2 : ¬ t.state = State.sampleSorted) :
    stepTopD cfg comp rand buf t rc = stepTop cfg comp rand buf t rc := by
  cases hs : t.state with
  | classify => exact absurd hs h1
  | sampleSorted => exact absurd hs h2
  | simpleCases => unfold stepTopD; rw [hs]
  | baseCase => unfold stepTopD; rw [hs]
  | sampleSelect => unfold stepTopD; rw [hs]
  | partition => unfold stepTopD; rw [hs]
  | recurse => unfold stepTopD; rw [hs]

theorem eraseM_step_commute (cfg : Cfg) (comp : Cmp α) (rand : ℕ → ℕ)
    (buf : List α) (t : Task α) (rest : List (Task α)) (rc : ℕ)
    (ht : ¬ t.state = State.classify) :
    eraseM (step cfg comp rand ⟨buf, t :: rest, rc⟩) =
      stepD cfg comp rand (eraseM ⟨buf, t :: rest, rc⟩) := by
  have hse : (eraseT t).state = t.state := eraseT_state t ht
  conv_rhs => rw [eraseM_mk, List.map_cons, stepD_cons]
  by_cases hss : t.state = State.sampleSorted
  · rw [stepTopD_sampleSorted (hse.trans hss), handleSampleSortedD_eraseT,
      step_cons, stepTop_sampleSorted hss, eraseM_mk, List.map_append]
  · rw [stepTopD_other (by rw [hse]; exact ht) (by rw [hse]; exact hss)]
    have hmain : stepTop cfg comp rand buf (eraseT t) rc =
        ⟨(stepTop cfg comp rand buf t rc).1,
         ((stepTop cfg comp rand buf t rc).2.1).map eraseT,
         (stepTop cfg comp rand buf t rc).2.2⟩ := by
      cases hs : t.state with
      | classify => exact absurd hs ht
      | sampleSorted => exact absurd hs hss
      | simpleCases =>
        rw [stepTop_simple (hse.trans hs), stepTop_simple hs, handleSimple_eraseT]
      | baseCase =>
        rw [stepTop_base (hse.trans hs), stepTop_base hs, handleBase_eraseT]
      | sampleSelect =>
        rw [stepTop_sampleSelect (hse.trans hs), stepTop_sampleSelect hs,
          handleSampleSelect_eraseT]
      | partition =>
        rw [stepTop_partition (hse.trans hs), stepTop_partition hs, handlePartition_eraseT]
      | recurse =>
        rw [stepTop_recurse (hse.trans hs), stepTop_recurse hs, handleRecurse_eraseT]
    rw [hmain, step_cons, eraseM_mk, List.map_append]
end Ips4o

namespace Ips4o

set_option maxHeartbeats 2000000 in
theorem cex_cycle (r : ℕ) :
    stepN cfgTiny natLt randZero 8 ⟨cexBuf, (initM cexBuf).stack, r⟩ =
      ⟨cexBuf, (initM cexBuf).stack, r + 1⟩ := rfl

theorem cex_cycle_iter : ∀ (k r : ℕ),
    stepN cfgTiny natLt randZero (8 * k) ⟨cexBuf, (initM cexBuf).stack, r⟩ =
      ⟨cexBuf, (initM cexBuf).stack, r + k⟩ := by
  intro k
  induction k with
  | zero => intro r; rfl
  | succ k ih =>
    intro r
    have h8 : 8 * (k + 1) = 8 * k + 8 := by ring
    rw [h8, stepN_add, ih r, cex_cycle (r + k)]
    have hr : r + k + 1 = r + (k + 1) := by omega
    rw [hr]

theorem cex_never_done : ∀ n : ℕ, (stepN cfgTiny natLt randZero n cexM).stack ≠ [] := by
  intro n hempty
  have h1 : stepN cfgTiny natLt randZero (8 * (n + 1)) cexM =
      ⟨cexBuf, (initM cexBuf).stack, 0 + (n + 1)⟩ := cex_cycle_iter (n + 1) 0
  have h2 : stepN cfgTiny natLt randZero (8 * (n + 1)) cexM =
      stepN cfgTiny natLt randZero n cexM := by
    rw [show 8 * (n + 1) = n + (8 * (n + 1) - n) from by omega, stepN_add]
    exact stepN_empty _ _ _ _ _ hempty
  have h3 : ((⟨cexBuf, (initM cexBuf).stack, 0 + (n + 1)⟩ : M ℕ)).stack =
      (stepN cfgTiny natLt randZero n cexM).stack := by
    rw [← h1, h2]
  rw [hempty] at h3
  exact List.noConfusion h3

end Ips4o

/-! ## The claims -/

namespace Ips4o

variable {α : Type}

/-- C1: for every input buffer and every strict-weak-order comparator, if
the run from the initial machine has emptied its stack within `fuel` steps
(i.e. `run()` returned), the final buffer is non-decreasing under the
comparator — and it is a permutation of the input. The sortedness claim of
the spec is confirmed conditionally on termination (which rests on C3). -/
theorem c1_run_sorts (cfg : Cfg) (comp : Cmp α) [Inhabited α] (rand : ℕ → ℕ)
    (hswo : IsSWO comp) (buf : List α) (fuel : ℕ)
    (hdone : (stepN cfg comp rand fuel (initM buf)).stack = []) :
    SortedLe comp ((stepN cfg comp rand fuel (initM buf)).buf) ∧
    ((stepN cfg comp rand fuel (initM buf)).buf).Perm buf := by
  have hB : ∀ u ∈ [({ b := 0, e := buf.length, state := State.simpleCases } : Task α)],
      u.state = State.simpleCases ∧ u.b ≤ u.e ∧ u.e ≤ buf.length := by
    intro u hu
    rcases List.mem_cons.mp hu with rfl | hu2
    · exact ⟨rfl, Nat.zero_le _, Nat.le_refl _⟩
    · simp at hu2
  have hpair : List.Pairwise (fun u w : Task α => u.e ≤ w.b ∨ w.e ≤ u.b)
      [({ b := 0, e := buf.length, state := State.simpleCases } : Task α)] := by
    simp
  have hstack : (stepN cfg comp rand fuel
      ⟨buf, [({ b := 0, e := buf.length, state := State.simpleCases } : Task α)] ++ [],
        0⟩).stack = [] := hdone
  obtain ⟨k, buf2, rc2, hk, heq, hlen, hout, hsl⟩ :=
    runTasks_sound cfg comp rand hswo fuel _ [] buf 0 hB hpair hstack
  have hfin : stepN cfg comp rand fuel (initM buf) = ⟨buf2, [], rc2⟩ := by
    have h1 : fuel = k + (fuel - k) := by omega
    rw [h1, stepN_add]
    have h2 : stepN cfg comp rand k (initM buf) = ⟨buf2, ([] : List (Task α)), rc2⟩ := heq
    rw [h2]
    exact stepN_empty _ _ _ _ _ rfl
  obtain ⟨hperm, hsorted⟩ := hsl _ (List.mem_cons_self _ _)
  have hb2 : slice 0 buf.length buf2 = buf2 := by
    rw [← hlen]
    exact slice_full buf2
  rw [hfin]
  constructor
  · have h3 : SortedLe comp (slice 0 buf.length buf2) := hsorted
    rw [hb2] at h3
    exact h3
  · have h4 : (slice 0 buf.length buf2).Perm (slice 0 buf.length buf) := hperm
    rw [hb2, slice_full buf] at h4
    exact h4

/-- Witness for C1 at a concrete input: `[3, 1, 2]` under `cfgTiny` empties
the stack in 9 steps and the final buffer is sorted. -/
theorem c1_run_sorts_witness :
    SortedLe natLt ((stepN cfgTiny natLt randZero 9 (initM [3, 1, 2])).buf) ∧
    ((stepN cfgTiny natLt randZero 9 (initM [3, 1, 2])).buf).Perm [3, 1, 2] :=
  c1_run_sorts cfgTiny natLt randZero natLt_isSWO [3, 1, 2] 9 (by decide)

/-- C2: every single `step()` from a well-formed machine state leaves the
buffer a permutation of what it was, and consequently the buffer after any
number of steps from the initial machine is a permutation of the input
multiset (in particular after `run()`). -/
theorem c2_step_preserves_multiset (cfg : Cfg) (comp : Cmp α) [Inhabited α]
    (rand : ℕ → ℕ) (buf : List α) (n : ℕ) (s : M α) (hwf : WFm s) :
    ((step cfg comp rand s).buf).Perm s.buf ∧
    ((stepN cfg comp rand n (initM buf)).buf).Perm buf := by
  constructor
  · exact (step_WFm cfg comp rand s hwf).2
  · exact (stepN_WFm cfg comp rand n (initM buf) (initM_WFm buf)).2

/-- Witness for C2 at concrete inputs. -/
theorem c2_step_preserves_multiset_witness :
    ((step cfgTiny natLt randZero cexM).buf).Perm cexM.buf ∧
    ((stepN cfgTiny natLt randZero 9 (initM [3, 1, 2])).buf).Perm [3, 1, 2] :=
  c2_step_preserves_multiset cfgTiny natLt randZero [3, 1, 2] 9 cexM (by unfold WFm WFt; decide)

/-- C3 counterexample: on the buffer `[1, 2, 1]` with the `cfgTiny` policy
and the always-zero random stream, the RECURSE step at the task covering
`[0, 3)` pushes a task covering the same `[0, 3)` — not strictly smaller —
and after 8 steps the machine returns to its initial configuration except
for the random counter, so `run()` never terminates. -/
theorem c3_counterexample :
    ((stepN cfgTiny natLt randZero 7 cexM).stack.map (fun u => (u.b, u.e, u.state)) =
      [(0, 3, State.recurse)]) ∧
    ((stepN cfgTiny natLt randZero 8 cexM).stack.map (fun u => (u.b, u.e, u.state)) =
      [(0, 3, State.simpleCases)]) ∧
    stepN cfgTiny natLt randZero 8 cexM = { cexM with rc := 1 } := by
  decide

/-- C3 amended: every task pushed by RECURSE has a range contained in its
parent's range (but not necessarily strictly smaller), and termination is
not guaranteed: on `cexBuf` the stack never empties. -/
theorem c3_amended_nontermination (buf : List α) (t : Task α) (rc : ℕ)
    (hbe : t.b ≤ t.e) (hbs : ∀ x ∈ t.bucket_starts, x ≤ t.e - t.b) :
    (∀ u ∈ (handleRecurse buf t rc).2.1, t.b ≤ u.b ∧ u.e ≤ t.e) ∧
    (∀ n : ℕ, (stepN cfgTiny natLt randZero n cexM).stack ≠ []) := by
  constructor
  · intro u hu
    replace hu : u ∈ (recurseTasks t.bucket_starts t.b : List (Task α)) := hu
    unfold recurseTasks at hu
    obtain ⟨pq, hpq, hu2⟩ := List.mem_filterMap.mp hu
    by_cases h1 : 1 < pq.2 - pq.1
    · rw [if_pos h1] at hu2
      cases hu2
      have hq2 : pq.2 ∈ t.bucket_starts := by
        have h2 := List.of_mem_zip hpq
        exact List.mem_of_mem_tail h2.2
      have h3 := hbs pq.2 hq2
      constructor
      · show t.b ≤ t.b + pq.1
        omega
      · show t.b + pq.2 ≤ t.e
        omega
    · rw [if_neg h1] at hu2
      exact Option.noConfusion hu2
  · exact cex_never_done

/-- Witness for C3's amended statement at a concrete recurse task. -/
theorem c3_witness :
    (∀ u ∈ (handleRecurse ([1, 2, 1] : List ℕ)
        { b := 0, e := 3, state := State.recurse, bucket_starts := [0, 0, 3] } 0).2.1,
      (0 : ℕ) ≤ u.b ∧ u.e ≤ 3) ∧
    (∀ n : ℕ, (stepN cfgTiny natLt randZero n cexM).stack ≠ []) :=
  c3_amended_nontermination [1, 2, 1]
    { b := 0, e := 3, state := State.recurse, bucket_starts := [0, 0, 3] } 0
    (by decide) (by decide)

/-- C4 counterexample: a sample of 50 comparator-equal elements yields ONE
splitter, not zero (the duplicate-skipping loop keeps the first candidate),
and the resulting degenerate single full-range bucket IS pushed back onto
the stack by RECURSE (its size exceeds 1), contrary to the claim. -/
theorem c4_counterexample :
    buildSplitters natLt (List.replicate 50 7) 1 8 = [7] ∧
    (handleRecurse (List.replicate 50 7)
        { b := 0, e := 50, state := State.recurse, splitters := [7],
          bucket_starts := [0, 0, 50] } 0).2.1 =
      [{ b := 0, e := 50, state := State.simpleCases }] := by
  decide

/-- C4 amended: for an all-equal sample the splitter builder yields exactly
one splitter (the repeated value) whenever the stride is positive, at most
the sample length, and at least two buckets are planned; and a PARTITION
producing the degenerate boundary list `[0, 0, n]` (empty first bucket,
full-range second bucket) makes RECURSE re-push the task's whole range. -/
theorem c4_amended_one_splitter (comp : Cmp α) [Inhabited α] (hswo : IsSWO comp)
    (v : α) (m st nb : ℕ) (hst : 0 < st) (hm : st ≤ m) (hnb : 2 ≤ nb)
    (buf : List α) (t : Task α) (rc : ℕ)
    (hbs : t.bucket_starts = [0, 0, t.e - t.b]) (hbe : t.b ≤ t.e)
    (hn : 1 < t.e - t.b) :
    buildSplitters comp (List.replicate m v) st nb = [v] ∧
    (handleRecurse buf t rc).2.1 =
      [{ b := t.b, e := t.e, state := State.simpleCases }] := by
  constructor
  · exact buildSplitters_replicate comp v m st nb (hswo.irrefl v) hst hm hnb
  · show (recurseTasks t.bucket_starts t.b : List (Task α)) = _
    rw [hbs, recurseTasks_degenerate (t.e - t.b) t.b hn,
      show t.b + (t.e - t.b) = t.e from by omega]

/-- Witness for C4's amended statement at a concrete all-equal sample. -/
theorem c4_witness :
    buildSplitters natLt (List.replicate 3 1) 1 4 = [1] ∧
    (handleRecurse ([1, 2, 1] : List ℕ)
        { b := 0, e := 3, state := State.recurse, bucket_starts := [0, 0, 3] } 0).2.1 =
      [{ b := 0, e := 3, state := State.simpleCases }] :=
  c4_amended_one_splitter natLt natLt_isSWO 1 3 1 4 (by decide) (by decide) (by decide)
    [1, 2, 1] { b := 0, e := 3, state := State.recurse, bucket_starts := [0, 0, 3] } 0
    (by decide) (by decide) (by decide)

/-- C5 counterexample: tasks are stored with states outside the claimed
five-value set — the SAMPLE_SORTED handler stores a CLASSIFY task, and the
PARTITION handler stores a RECURSE task — and the step dispatched on a
PARTITION task does not pop it or push bucket tasks: it leaves exactly one
task on the stack, over the same range, now in state RECURSE (the pushes
happen only in the later RECURSE step). -/
theorem c5_counterexample :
    ((handleSampleSorted natLt ([1, 2, 1] : List ℕ)
        { b := 0, e := 3, state := State.sampleSorted, num_samples := 1, step := 1,
          num_buckets := 2 } 0).2.1.map (fun u => u.state) = [State.classify]) ∧
    ((handlePartition natLt ([1, 2, 1] : List ℕ)
        { b := 0, e := 3, state := State.partition, splitters := [1] } 0).2.1.map
      (fun u => (u.b, u.e, u.state)) = [(0, 3, State.recurse)]) ∧
    (handlePartition natLt ([1, 2, 1] : List ℕ)
        { b := 0, e := 3, state := State.partition, splitters := [1] } 0).2.1.length
      = 1 := by
  decide

/-- C5 amended: the state enumeration has seven values. A step on a
PARTITION task
does not pop it: it rewrites the top task in place to a RECURSE task over
the same range after partitioning the buffer slice; the pop and the pushes
happen in the separate RECURSE step, which pushes one SIMPLE_CASES task per
bucket of size greater than one. -/
theorem c5_amended_seven_states (cfg : Cfg) (comp : Cmp α) [Inhabited α]
    (rand : ℕ → ℕ) (buf : List α) (t : Task α) (rest : List (Task α)) (rc : ℕ) :
    (∃ bs : List ℕ,
      step cfg comp rand ⟨buf, { t with state := State.partition } :: rest, rc⟩ =
        ⟨applySlice t.b t.e
            (fun _ => (multiPart comp t.splitters (slice t.b t.e buf)).1) buf,
         { t with state := State.recurse, bucket_starts := bs } :: rest, rc⟩) ∧
    (step cfg comp rand ⟨buf, { t with state := State.recurse } :: rest, rc⟩ =
      ⟨buf, recurseTasks t.bucket_starts t.b ++ rest, rc⟩) ∧
    (∀ u ∈ (recurseTasks t.bucket_starts t.b : List (Task α)),
      u.state = State.simpleCases ∧ 1 < u.e - u.b) := by
  refine ⟨⟨(0 :: (multiPart comp t.splitters (slice t.b t.e buf)).2) ++ [t.e - t.b],
    rfl⟩, rfl, ?_⟩
  intro u hu
  replace hu : u ∈ (recurseTasks t.bucket_starts t.b : List (Task α)) := hu
  unfold recurseTasks at hu
  obtain ⟨pq, hpq, hu2⟩ := List.mem_filterMap.mp hu
  by_cases h1 : 1 < pq.2 - pq.1
  · rw [if_pos h1] at hu2
    cases hu2
    refine ⟨rfl, ?_⟩
    show 1 < t.b + pq.2 - (t.b + pq.1)
    omega
  · rw [if_neg h1] at hu2
    exact Option.noConfusion hu2

/-- C6: entering SAMPLE_SELECT on a task of range length `n = e - b`
replaces the top of the stack with the sample-sort child and a SAMPLE_SORTED
continuation carrying exactly the plan `num_buckets = 2 ^ logBuckets n`,
`step = max 1 (oversamplingFactor n)`,
`num_samples = min (step * num_buckets - 1) (n / 2)`; and the plan is a
function of `n` alone — it does not depend on the buffer contents being
shuffled, i.e. it is fixed before any mutation. -/
theorem c6_sampling_plan (cfg : Cfg) [Inhabited α] (rand : ℕ → ℕ) (buf : List α)
    (t : Task α) (rc : ℕ) :
    ∃ child ctx : Task α,
      (handleSampleSelect cfg rand buf t rc).2.1 = [child, ctx] ∧
      ctx.num_buckets = 2 ^ cfg.logBuckets (t.e - t.b) ∧
      ctx.step = max 1 (cfg.oversamplingFactor (t.e - t.b)) ∧
      ctx.num_samples = min (ctx.step * ctx.num_buckets - 1) ((t.e - t.b) / 2) ∧
      ctx.log_buckets = cfg.logBuckets (t.e - t.b) ∧
      ctx.state = State.sampleSorted ∧ ctx.b = t.b ∧ ctx.e = t.e ∧
      child = { b := t.b, e := t.b + ctx.num_samples, state := State.simpleCases } ∧
      (handleSampleSelect cfg rand buf t rc).1 =
        applySlice t.b t.e (shuffleGo rand rc (t.e - t.b) ctx.num_samples 0) buf ∧
      (handleSampleSelect cfg rand buf t rc).2.2 = rc + ctx.num_samples ∧
      ∀ buf2 : List α, ((handleSampleSelect cfg rand buf2 t rc).2.1).map
          (fun u => (u.state, u.log_buckets, u.num_buckets, u.step, u.num_samples)) =
        ((handleSampleSelect cfg rand buf t rc).2.1).map
          (fun u => (u.state, u.log_buckets, u.num_buckets, u.step, u.num_samples)) :=
  ⟨_, _, rfl, rfl, rfl, rfl, rfl, rfl, rfl, rfl, rfl, rfl, rfl, fun _ => rfl⟩

/-- C7: the SAMPLE_SORTED step rewrites the top task in place (buffer
untouched) into a CLASSIFY task whose splitters are strictly increasing
under the comparator and number at most `num_buckets - 1`; the sequence can
be strictly shorter than `num_buckets - 1` when the sample has duplicates
(witnessed by a concrete all-equal sample planned for 8 buckets). -/
theorem c7_splitters_increasing (comp : Cmp α) [Inhabited α] (hswo : IsSWO comp)
    (buf : List α) (t : Task α) (rc : ℕ) :
    ∃ t2 : Task α, (handleSampleSorted comp buf t rc).2.1 = [t2] ∧
      (handleSampleSorted comp buf t rc).1 = buf ∧
      t2.state = State.classify ∧
      List.Pairwise (fun a b => comp a b = true) t2.splitters ∧
      t2.splitters.length ≤ t.num_buckets - 1 ∧
      (buildSplitters natLt [2, 2, 2, 2] 1 8).length < 8 - 1 := by
  unfold handleSampleSorted
  by_cases hc : 0 < t.num_samples ∧ 0 < t.step
  · rw [if_pos hc]
    refine ⟨_, rfl, rfl, rfl, ?_, ?_, by decide⟩
    · exact chain_lt_to_pairwise hswo
        (bsGo_facts comp _ t.num_buckets _ [] List.chain'_nil (Nat.zero_le _)).1
    · exact (bsGo_facts comp _ t.num_buckets _ [] List.chain'_nil (Nat.zero_le _)).2
  · rw [if_neg hc]
    exact ⟨_, rfl, rfl, rfl, List.Pairwise.nil, Nat.zero_le _, by decide⟩

/-- Witness for C7 at a concrete sorted sample. -/
theorem c7_witness :
    ∃ t2 : Task ℕ, (handleSampleSorted natLt [1, 3, 2, 5]
        { b := 0, e := 4, state := State.sampleSorted, num_samples := 2, step := 1,
          num_buckets := 2 } 0).2.1 = [t2] ∧
      (handleSampleSorted natLt [1, 3, 2, 5]
        { b := 0, e := 4, state := State.sampleSorted, num_samples := 2, step := 1,
          num_buckets := 2 } 0).1 = [1, 3, 2, 5] ∧
      t2.state = State.classify ∧
      List.Pairwise (fun a b => natLt a b = true) t2.splitters ∧
      t2.splitters.length ≤ 2 - 1 ∧
      (buildSplitters natLt [2, 2, 2, 2] 1 8).length < 8 - 1 :=
  c7_splitters_increasing natLt natLt_isSWO [1, 3, 2, 5]
    { b := 0, e := 4, state := State.sampleSorted, num_samples := 2, step := 1,
      num_buckets := 2 } 0

/-- C8: on a range of length at most the base threshold, the BASE_CASE step
pops the task, sorts the range in place (sorted, a permutation, nothing
outside the range touched), and is stable: tagging every element with its
original position and comparing only the value component, each class of
comparator-equal elements keeps its original relative order. -/
theorem c8_base_case_stable (cfg : Cfg) (comp : Cmp α) (hswo : IsSWO comp)
    (buf : List (α × ℕ)) (t : Task (α × ℕ)) (rc : ℕ)
    (hth : t.e - t.b ≤ cfg.baseThreshold) (hbe : t.b ≤ t.e) (hel : t.e ≤ buf.length) :
    (handleBase cfg (onFst comp) buf t rc).2.1 = [] ∧
    (handleBase cfg (onFst comp) buf t rc).2.2 = rc ∧
    Agree t.b t.e (handleBase cfg (onFst comp) buf t rc).1 buf ∧
    (slice t.b t.e (handleBase cfg (onFst comp) buf t rc).1).Perm
      (slice t.b t.e buf) ∧
    SortedLe (onFst comp) (slice t.b t.e (handleBase cfg (onFst comp) buf t rc).1) ∧
    ∀ x : α, (slice t.b t.e (handleBase cfg (onFst comp) buf t rc).1).filter
        (fun q => eqvB comp q.1 x) =
      (slice t.b t.e buf).filter (fun q => eqvB comp q.1 x) := by
  have hbfun : handleBase cfg (onFst comp) buf t rc =
      ⟨applySlice t.b t.e (insertionSortC (onFst comp)) buf, [], rc⟩ := by
    unfold handleBase
    rw [if_pos hth]
  rw [hbfun]
  have hflen : (insertionSortC (onFst comp) (slice t.b t.e buf)).length = t.e - t.b := by
    rw [insertionSortC_length, slice_length _ _ _ hbe hel]
  have hsl : slice t.b t.e (applySlice t.b t.e (insertionSortC (onFst comp)) buf) =
      insertionSortC (onFst comp) (slice t.b t.e buf) :=
    slice_applySlice _ _ _ _ hbe hel hflen
  refine ⟨rfl, rfl, applySlice_agree _ _ _ _ hbe hel hflen, ?_, ?_, ?_⟩
  · rw [hsl]
    exact insertionSortC_perm _ _
  · rw [hsl]
    exact insertionSortC_sortedLe (onFst_isSWO hswo) _
  · intro x
    rw [hsl]
    exact insertionSortC_filter (onFst_isSWO hswo) (fun q => eqvB comp q.1 x)
      (fun u v hu hv => eqv_incomp hswo hu hv) _

/-- Witness for C8 at a concrete two-element range of comparator-equal
tagged values. -/
theorem c8_witness :
    (handleBase cfgTiny (onFst natLt) [((1 : ℕ), (0 : ℕ)), (1, 1)]
        { b := 0, e := 2, state := State.baseCase } 0).2.1 = [] ∧
    (handleBase cfgTiny (onFst natLt) [((1 : ℕ), (0 : ℕ)), (1, 1)]
        { b := 0, e := 2, state := State.baseCase } 0).2.2 = 0 ∧
    Agree 0 2 (handleBase cfgTiny (onFst natLt) [((1 : ℕ), (0 : ℕ)), (1, 1)]
        { b := 0, e := 2, state := State.baseCase } 0).1 [((1 : ℕ), (0 : ℕ)), (1, 1)] ∧
    (slice 0 2 (handleBase cfgTiny (onFst natLt) [((1 : ℕ), (0 : ℕ)), (1, 1)]
        { b := 0, e := 2, state := State.baseCase } 0).1).Perm
      (slice 0 2 [((1 : ℕ), (0 : ℕ)), (1, 1)]) ∧
    SortedLe (onFst natLt) (slice 0 2 (handleBase cfgTiny (onFst natLt)
        [((1 : ℕ), (0 : ℕ)), (1, 1)] { b := 0, e := 2, state := State.baseCase } 0).1) ∧
    ∀ x : ℕ, (slice 0 2 (handleBase cfgTiny (onFst natLt) [((1 : ℕ), (0 : ℕ)), (1, 1)]
        { b := 0, e := 2, state := State.baseCase } 0).1).filter
        (fun q => eqvB natLt q.1 x) =
      (slice 0 2 [((1 : ℕ), (0 : ℕ)), (1, 1)]).filter (fun q => eqvB natLt q.1 x) :=
  c8_base_case_stable cfgTiny natLt natLt_isSWO [((1 : ℕ), (0 : ℕ)), (1, 1)]
    { b := 0, e := 2, state := State.baseCase } 0 (by decide) (by decide) (by decide)

/-- C9: the CLASSIFY pass is redundant. Erasing the never-read bucket
counts and short-circuiting CLASSIFY to PARTITION (`eraseM`), every `n`-step
run of the original machine is matched by an `m ≤ n`-step run of the
CLASSIFY-free machine (`stepDN`) from the erased start state, reaching the
erased final state: the buffers agree exactly and the stacks agree up to
erasure. In particular the final buffer contents and the sequence of pushed
bucket tasks are identical with or without CLASSIFY. -/
theorem c9_classify_redundant (cfg : Cfg) (comp : Cmp α) [Inhabited α]
    (rand : ℕ → ℕ) (s0 : M α) (n : ℕ) :
    ∃ m : ℕ, m ≤ n ∧
      stepDN cfg comp rand m (eraseM s0) = eraseM (stepN cfg comp rand n s0) ∧
      (stepDN cfg comp rand m (eraseM s0)).buf = (stepN cfg comp rand n s0).buf ∧
      (stepDN cfg comp rand m (eraseM s0)).stack =
        ((stepN cfg comp rand n s0).stack).map eraseT := by
  induction n generalizing s0 with
  | zero => exact ⟨0, Nat.le_refl 0, rfl, rfl, rfl⟩
  | succ n ih =>
    obtain ⟨buf, stack, rc⟩ := s0
    cases stack with
    | nil =>
      obtain ⟨m, hm, he, h2, h3⟩ := ih ⟨buf, [], rc⟩
      have hsN : stepN cfg comp rand (n + 1) (⟨buf, [], rc⟩ : M α) =
          stepN cfg comp rand n (⟨buf, [], rc⟩ : M α) := by
        show stepN cfg comp rand n (step cfg comp rand ⟨buf, [], rc⟩) = _
        rw [step_nil]
      rw [hsN]
      exact ⟨m, by omega, he, h2, h3⟩
    | cons t rest =>
      obtain ⟨m, hm, he, h2, h3⟩ := ih (step cfg comp rand ⟨buf, t :: rest, rc⟩)
      have hsN : stepN cfg comp rand (n + 1) (⟨buf, t :: rest, rc⟩ : M α) =
          stepN cfg comp rand n (step cfg comp rand ⟨buf, t :: rest, rc⟩) := rfl
      rw [hsN]
      by_cases hcl : t.state = State.classify
      · have hstut := eraseM_step_classify cfg comp rand buf t rest rc hcl
        rw [hstut] at he h2 h3
        exact ⟨m, by omega, he, h2, h3⟩
      · have hcom := eraseM_step_commute cfg comp rand buf t rest rc hcl
        refine ⟨m + 1, by omega, ?_, ?_, ?_⟩
        · show stepDN cfg comp rand m
              (stepD cfg comp rand (eraseM ⟨buf, t :: rest, rc⟩)) = _
          rw [← hcom]
          exact he
        · show (stepDN cfg comp rand m
              (stepD cfg comp rand (eraseM ⟨buf, t :: rest, rc⟩))).buf = _
          rw [← hcom]
          exact h2
        · show (stepDN cfg comp rand m
              (stepD cfg comp rand (eraseM ⟨buf, t :: rest, rc⟩))).stack = _
          rw [← hcom]
          exact h3

/-- C10: the SIMPLE_CASES reverse fast path fires on any range whose last
element is below its first and with no strictly ascending adjacent pair
(duplicate runs allowed): the step reverses the slice in place and pops the
task, and the reversed slice is non-decreasing under the comparator and a
permutation of the original slice. -/
theorem c10_reverse_fast_path (comp : Cmp α) (hswo : IsSWO comp) (buf : List α)
    (t : Task α) (rc : ℕ) (hbe : t.b < t.e) (hel : t.e ≤ buf.length)
    (a : α) (as : List α) (hsl : slice t.b t.e buf = a :: as)
    (hdesc : comp (List.getLastD as a) a = true)
    (hnoasc : anyAsc comp (a :: as) = false) :
    handleSimple comp buf t rc = ⟨applySlice t.b t.e List.reverse buf, [], rc⟩ ∧
    (slice t.b t.e (applySlice t.b t.e List.reverse buf)).Perm (slice t.b t.e buf) ∧
    SortedLe comp (slice t.b t.e (applySlice t.b t.e List.reverse buf)) := by
  have hbne : ¬ t.b = t.e := by omega
  have h1 : handleSimple comp buf t rc = ⟨applySlice t.b t.e List.reverse buf, [], rc⟩ := by
    unfold handleSimple
    rw [if_neg hbne]
    simp only [hsl]
    rw [hdesc, hnoasc]
    simp
  have hflen : ((slice t.b t.e buf).reverse).length = t.e - t.b := by
    rw [List.length_reverse, slice_length _ _ _ (by omega) hel]
  have hsl2 : slice t.b t.e (applySlice t.b t.e List.reverse buf) =
      (slice t.b t.e buf).reverse :=
    slice_applySlice _ _ _ _ (by omega) hel hflen
  refine ⟨h1, ?_, ?_⟩
  · rw [hsl2]
    exact List.reverse_perm _
  · rw [hsl2, hsl]
    exact chain_to_sortedLe hswo (reverse_chain_of_anyAsc comp (a :: as) hnoasc)

/-- Witness for C10 on the non-strictly descending range `[2, 2, 1]`. -/
theorem c10_witness :
    handleSimple natLt [2, 2, 1] { b := 0, e := 3, state := State.simpleCases } 0 =
      ⟨applySlice 0 3 List.reverse [2, 2, 1], [], 0⟩ ∧
    (slice 0 3 (applySlice 0 3 List.reverse [2, 2, 1])).Perm (slice 0 3 [2, 2, 1]) ∧
    SortedLe natLt (slice 0 3 (applySlice 0 3 List.reverse [2, 2, 1])) :=
  c10_reverse_fast_path natLt natLt_isSWO [2, 2, 1]
    { b := 0, e := 3, state := State.simpleCases } 0 (by decide) (by decide)
    2 [2, 1] (by decide) (by decide) (by decide)

end Ips4o
